import Mathlib

set_option maxHeartbeats 1000000
set_option maxRecDepth 4000

/-!
Verification development for the drfs core (parallel disk-usage/inventory engine).

The Rust source is shallowly embedded:
* `FileEntry`, `DirEntry`, `Entry` mirror src/file.rs, src/dir.rs and src/entry.rs;
  `SystemTime` is modelled as `Nat` and `Arc<io::Error>` as `String`, so a
  `Result<SystemTime, Arc<io::Error>>` becomes `Except String Nat`.
* `MemStorage` (src/store/memstorage.rs) is a mutex-guarded `HashMap`; its
  per-key-linearizable map contents are modelled as a function `K → Option V`,
  with state passed explicitly (Rust mutates in place through `&self`).
* The sequential aggregation loops (`DirEntry::count_entries`,
  `DirEntry::calculate_size_all_children`, src/dir.rs lines 148-176 and 235-263)
  are `while let Some(c) = queue.pop()` loops over a `Vec` used as a stack;
  they are embedded with explicit fuel (`none` = the loop did not finish within
  the given fuel; on stores populated by a crawl a sufficient fuel always exists).
* The parallel aggregators and the crawler's work-stealing scheduler are
  embedded as small-step transition relations further below.
-/

deriving instance DecidableEq for Except

/-- Timestamp field: Rust `Result<SystemTime, Arc<io::Error>>`. -/
abbrev TimeResult := Except String Nat

/-- Metadata read from the filesystem for one object (`std::fs::Metadata`):
`len` plus the three independently fallible timestamps. -/
structure Metadata where
  len : Nat
  accessed : TimeResult
  modified : TimeResult
  created : TimeResult
deriving DecidableEq

/-- FileEntry (src/file.rs lines 10-19). `path` stands for the displayed
`Box<PathBuf>`. -/
structure FileEntry where
  name : String
  path : String
  size : Nat
  last_access_time : TimeResult
  last_modified_time : TimeResult
  creation_time : TimeResult
  parent : Option String
deriving DecidableEq

/-- DirEntry (src/dir.rs lines 17-28). `children` is the ordered list of child
path keys in discovery order. -/
structure DirEntry where
  name : String
  path_buf : String
  size : Nat
  size_all_children : Nat
  last_access_time : TimeResult
  last_modified_time : TimeResult
  creation_time : TimeResult
  children : List String
  parent : Option String
deriving DecidableEq

/-- Entry (src/entry.rs lines 87-91): tagged File/Directory sum. -/
inductive Entry where
  | File (f : FileEntry)
  | Dir (d : DirEntry)
deriving DecidableEq

/-- Entry::get_size (src/entry.rs lines 125-130): size of a File, and a
Directory's own `size` field (its stat size), not the aggregated one. -/
def Entry.get_size : Entry → Nat
  | .File f => f.size
  | .Dir d => d.size

/-- Entry::get_children (src/entry.rs lines 146-151). -/
def Entry.get_children : Entry → List String
  | .File _ => []
  | .Dir d => d.children

/-- Entry::get_format_path (src/entry.rs lines 132-137). -/
def Entry.get_format_path : Entry → String
  | .File f => f.path
  | .Dir d => d.path_buf

/-- The map contents of a `MemStorage<K, V>` (src/store/memstorage.rs):
a `Mutex<HashMap<K, V>>` whose contents are a partial map from keys to values.
Rust mutates the map in place; here the updated map is returned. -/
def MemStorage (K V : Type) : Type := K → Option V

/-- MemStorage::new (src/store/memstorage.rs lines 17-21): the empty map. -/
def MemStorage.new (K V : Type) : MemStorage K V := fun _ => none

/-- Storage::set for MemStorage (src/store/memstorage.rs lines 29-31):
upsert, last writer wins (`HashMap::insert`). -/
def MemStorage.set {K V : Type} [DecidableEq K] (m : MemStorage K V) (key : K) (value : V) :
    MemStorage K V :=
  fun q => if q = key then some value else m q

/-- Storage::get for MemStorage (src/store/memstorage.rs lines 32-34):
returns an independent clone of the stored value. -/
def MemStorage.get {K V : Type} (m : MemStorage K V) (key : K) : Option V := m key

/-- Storage::pull_out for MemStorage (src/store/memstorage.rs lines 35-37):
`HashMap::remove` — removes the value and returns it, together with the
resulting map state. -/
def MemStorage.pull_out {K V : Type} [DecidableEq K] (m : MemStorage K V) (key : K) :
    Option V × MemStorage K V :=
  (m key, fun q => if q = key then none else m q)

/-- Storage::remove for MemStorage (src/store/memstorage.rs lines 38-40):
`HashMap::remove` with the returned value discarded. -/
def MemStorage.remove {K V : Type} [DecidableEq K] (m : MemStorage K V) (key : K) :
    MemStorage K V :=
  fun q => if q = key then none else m q

/-- GenericStorage (src/entry.rs line 19): `Box<dyn Storage<String, Entry>>`,
always instantiated with `MemStorage` in this program. -/
abbrev GenericStorage := MemStorage String Entry

/-- Rust `Vec::pop`: removes and returns the LAST element. The aggregation
loops use a `Vec` as a stack, popping from the end. -/
def vecPop {α : Type} (q : List α) : Option (α × List α) :=
  match q.reverse with
  | [] => none
  | x :: rest => some (x, rest.reverse)

/-- The `while let Some(c) = queue.pop()` loop of DirEntry::count_entries
(src/dir.rs lines 163-173): pop a key from the stack, look it up, skip it if
absent (`None => continue`), otherwise increment the counter (for File AND
Dir entries alike) and, for a Dir, append its children keys to the stack.
`fuel` bounds the number of iterations; `none` means the loop was still
running when the fuel ran out (the Rust loop diverges on a store whose
children references are cyclic, which a crawl never produces). -/
def count_entries_loop (storage : GenericStorage) : Nat → List String → Nat → Option Nat
  | 0, _, _ => none
  | fuel + 1, queue, counter =>
    match vecPop queue with
    | none => some counter
    | some (c, rest) =>
      match MemStorage.get storage c with
      | none => count_entries_loop storage fuel rest counter
      | some (Entry.File _) => count_entries_loop storage fuel rest (counter + 1)
      | some (Entry.Dir dir) =>
          count_entries_loop storage fuel (rest ++ dir.children) (counter + 1)

/-- DirEntry::count_entries (src/dir.rs lines 148-176). With no storage it
returns the length of the directory's own children list; otherwise it runs
the explicit-stack walk seeded with the children keys. -/
def DirEntry.count_entries (self : DirEntry) (storage : Option GenericStorage) (fuel : Nat) :
    Option Nat :=
  match storage with
  | none => some self.children.length
  | some st => count_entries_loop st fuel self.children 0

/-- The walk loop of DirEntry::calculate_size_all_children (src/dir.rs lines
250-260): like `count_entries_loop` but accumulating `entry.get_size()` of
every found entry (File sizes and Dir stat sizes alike). -/
def calculate_size_loop (storage : GenericStorage) : Nat → List String → Nat → Option Nat
  | 0, _, _ => none
  | fuel + 1, queue, total =>
    match vecPop queue with
    | none => some total
    | some (c, rest) =>
      match MemStorage.get storage c with
      | none => calculate_size_loop storage fuel rest total
      | some (Entry.File f) => calculate_size_loop storage fuel rest (total + f.size)
      | some (Entry.Dir dir) =>
          calculate_size_loop storage fuel (rest ++ dir.children) (total + dir.size)

/-- DirEntry::calculate_size_all_children (src/dir.rs lines 235-263). With no
storage it returns 0; otherwise the explicit-stack walk summing sizes. -/
def DirEntry.calculate_size_all_children (self : DirEntry) (storage : Option GenericStorage)
    (fuel : Nat) : Option Nat :=
  match storage with
  | none => some 0
  | some st => calculate_size_loop st fuel self.children 0

/-- Metadata attached to one node of a filesystem tree: the fields
DirEntry::new / FileEntry::new read from `std::fs::Metadata` plus the decoded
final path component. -/
structure NodeMeta where
  name : String
  size : Nat
  access : TimeResult
  modified : TimeResult
  created : TimeResult
deriving DecidableEq

/-- A point-in-time snapshot of the filesystem below some root: each node
carries its canonical path string (the `path_key`) and its metadata; a
directory node carries its child subtrees in discovery order. This is the
input the crawler walks. -/
inductive FsTree where
  | file (path : String) (meta : NodeMeta)
  | dir (path : String) (meta : NodeMeta) (children : List FsTree)

/-- Path key of the root node of a subtree. -/
def FsTree.path : FsTree → String
  | .file p _ => p
  | .dir p _ _ => p

/-- Whether the node is a directory. -/
def FsTree.isDir : FsTree → Bool
  | .file _ _ => false
  | .dir _ _ _ => true

mutual
/-- Number of nodes (files and directories alike) in a subtree, the node
itself included. -/
def FsTree.nodeCount : FsTree → Nat
  | .file _ _ => 1
  | .dir _ _ cs => 1 + forestNodeCount cs

/-- Total node count of a forest. -/
def forestNodeCount : List FsTree → Nat
  | [] => 0
  | t :: ts => FsTree.nodeCount t + forestNodeCount ts
end

mutual
/-- Sum of the `size` metadata over ALL nodes of a subtree (files and
directories alike), the node itself included. -/
def FsTree.sizeSum : FsTree → Nat
  | .file _ m => m.size
  | .dir _ m cs => m.size + forestSizeSum cs

/-- Total size sum of a forest. -/
def forestSizeSum : List FsTree → Nat
  | [] => 0
  | t :: ts => FsTree.sizeSum t + forestSizeSum ts
end

mutual
/-- Number of File nodes in a subtree. -/
def FsTree.fileCount : FsTree → Nat
  | .file _ _ => 1
  | .dir _ _ cs => forestFileCount cs

/-- Number of File nodes of a forest. -/
def forestFileCount : List FsTree → Nat
  | [] => 0
  | t :: ts => FsTree.fileCount t + forestFileCount ts
end

mutual
/-- Sum of the sizes of the File nodes in a subtree. -/
def FsTree.fileSizeSum : FsTree → Nat
  | .file _ m => m.size
  | .dir _ _ cs => forestFileSizeSum cs

/-- File size sum of a forest. -/
def forestFileSizeSum : List FsTree → Nat
  | [] => 0
  | t :: ts => FsTree.fileSizeSum t + forestFileSizeSum ts
end

/-- The Entry the crawler constructs for a node (FileEntry::new /
DirEntry::new at discovery time, followed by the crawl writing the listed
children keys into a directory's `children`): names, sizes and timestamps
come from the node metadata, `parent` is the parent's path key, a directory's
`size_all_children` starts at 0 and its children list holds the child path
keys in discovery order. -/
def entryOf (parent : Option String) : FsTree → Entry
  | .file p m => Entry.File ⟨m.name, p, m.size, m.access, m.modified, m.created, parent⟩
  | .dir p m cs =>
      Entry.Dir ⟨m.name, p, m.size, 0, m.access, m.modified, m.created,
        cs.map FsTree.path, parent⟩

mutual
/-- All (key, Entry) pairs the crawl stores for a subtree whose parent has
the given path key: the node itself under its path key, then every
descendant (each loaded directory is stored with its children list
populated, each file as discovered). -/
def storeList (parent : Option String) : FsTree → List (String × Entry)
  | .file p m => [(p, entryOf parent (.file p m))]
  | .dir p m cs => (p, entryOf parent (.dir p m cs)) :: forestStoreList (some p) cs

/-- Store pairs of a forest of sibling subtrees. -/
def forestStoreList (parent : Option String) : List FsTree → List (String × Entry)
  | [] => []
  | t :: ts => storeList parent t ++ forestStoreList parent ts
end

/-- Store state obtained by `set`-ting every pair of a list in order
(last writer wins, as in the crawl's `store_entry` calls). -/
def storeEntries (l : List (String × Entry)) : GenericStorage :=
  l.foldl (fun st kv => MemStorage.set st kv.1 kv.2) (MemStorage.new String Entry)

/-- The store contents after `load_all_children` has crawled a root directory
with path key `rootPath` whose listing is the forest `cs`: every strict
descendant of the root is stored under its path key (the root itself is
not stored). Since a crawl stores each distinct path key once, the
interleaving of the workers' `set` calls does not affect this final state. -/
def populated (rootPath : String) (cs : List FsTree) : GenericStorage :=
  storeEntries (forestStoreList (some rootPath) cs)

/-- The keys stored for a forest, in `forestStoreList` order. -/
def forestKeys (parent : Option String) (cs : List FsTree) : List String :=
  (forestStoreList parent cs).map Prod.fst

/-- A store covers a subtree when every node of the subtree is present under
its path key, mapped to exactly the Entry the crawl built for it (for some
parent key). A store populated by a crawl of a root covers every child
subtree of the root. -/
inductive Covers (st : GenericStorage) : FsTree → Prop
  | file (p : String) (m : NodeMeta) (parent : Option String)
      (h : MemStorage.get st p = some (entryOf parent (.file p m))) :
      Covers st (.file p m)
  | dir (p : String) (m : NodeMeta) (cs : List FsTree) (parent : Option String)
      (h : MemStorage.get st p = some (entryOf parent (.dir p m cs)))
      (hc : ∀ c ∈ cs, Covers st c) :
      Covers st (.dir p m cs)

/-- DirEntry::get_load_children + the crawl's effect, sequentialised:
load_all_children_with_storage (src/dir.rs lines 295-396). The real function
first checks the reload guard — `if self.children.len() != 0` it panics
("can only load children if have no children already exist"); `none` models
that panic. Otherwise it lists the directory (`listing` is the snapshot of
the filesystem below it), records the direct children's path keys into
`self.children`, and the worker pool stores every discovered descendant
entry into the storage (when one is attached; `store_entry` is a no-op
otherwise). Filesystem listing errors are the returned error list; in this
pure model the listing always succeeds, so it is empty. -/
def DirEntry.load_all_children_with_storage (self : DirEntry) (listing : List FsTree)
    (storage : Option GenericStorage) :
    Option (DirEntry × Option GenericStorage × List String) :=
  if self.children.length ≠ 0 then
    none
  else
    some ({ self with children := listing.map FsTree.path },
      storage.map (fun st =>
        (forestStoreList (some self.path_buf) listing).foldl
          (fun acc kv => MemStorage.set acc kv.1 kv.2) st),
      [])

/-- EntryWrapper (src/entry.rs lines 14-17): the currently displayed Entry
plus an optionally attached storage. -/
structure EntryWrapper where
  entry : Entry
  storage : Option GenericStorage

/-- EntryWrapper::load_all_children (src/entry.rs lines 48-54): if the
displayed entry is a Dir, crawl it (possibly panicking on reload, modelled
as `none`); otherwise return an empty error list and change nothing. -/
def EntryWrapper.load_all_children (self : EntryWrapper) (listing : List FsTree) :
    Option (EntryWrapper × List String) :=
  match self.entry with
  | Entry.Dir d =>
      match d.load_all_children_with_storage listing self.storage with
      | none => none
      | some (d2, st2, errs) => some ({ entry := Entry.Dir d2, storage := st2 }, errs)
  | Entry.File _ => some (self, [])

/-- EntryWrapper::count_entries (src/entry.rs lines 56-61). -/
def EntryWrapper.count_entries (self : EntryWrapper) (fuel : Nat) : Option Nat :=
  match self.entry with
  | Entry.File _ => some 1
  | Entry.Dir d => d.count_entries self.storage fuel

/-- EntryWrapper::calculate_size (src/entry.rs lines 63-68). -/
def EntryWrapper.calculate_size (self : EntryWrapper) (fuel : Nat) : Option Nat :=
  match self.entry with
  | Entry.File f => some f.size
  | Entry.Dir d => d.calculate_size_all_children self.storage fuel

/-- A filesystem path as seen by entry construction: `display` is the full
path string, `file_name` is `Path::file_name` (`none`: the path has no final
component, e.g. "/" or "a/.."), composed with `OsStr::to_str`
(`some none`: the component exists but is not valid unicode), `metadata` is
the `stat` result and `is_dir` the `Path::is_dir` classification. -/
structure PathObj where
  display : String
  file_name : Option (Option String)
  metadata : Except String Metadata
  is_dir : Bool

/-- FileEntry::new (src/file.rs lines 22-54): fails when the final path
component is missing or undecodable, or when `stat` fails; each of the three
timestamps is stored as its own `Result` inside the entry, an unavailable
timestamp never failing construction. -/
def FileEntry.new (p : PathObj) (parent : Option String) : Except String FileEntry :=
  match p.file_name with
  | none => Except.error ("unable to get name from path " ++ p.display)
  | some none => Except.error ("unable to parse name from path " ++ p.display)
  | some (some name) =>
    match p.metadata with
    | Except.error e => Except.error e
    | Except.ok md =>
        Except.ok ⟨name, p.display, md.len, md.accessed, md.modified, md.created, parent⟩

/-- DirEntry::new (src/dir.rs lines 31-66): same construction as
FileEntry::new with `children` empty and `size_all_children` 0. -/
def DirEntry.new (p : PathObj) (parent : Option String) : Except String DirEntry :=
  match p.file_name with
  | none => Except.error ("unable to get name from path " ++ p.display)
  | some none => Except.error ("unable to parse name from path " ++ p.display)
  | some (some name) =>
    match p.metadata with
    | Except.error e => Except.error e
    | Except.ok md =>
        Except.ok ⟨name, p.display, md.len, 0, md.accessed, md.modified, md.created, [], parent⟩

/-- Entry::new_with_parent (src/entry.rs lines 94-105): classify by
`Path::is_dir`, then construct the matching variant. -/
def Entry.new_with_parent (p : PathObj) (parent : Option String) : Except String Entry :=
  if p.is_dir then
    (DirEntry.new p parent).map Entry.Dir
  else
    (FileEntry.new p parent).map Entry.File

/-- One step of DirEntry::count_entries_multi (src/dir.rs lines 92-146), the
scheduler-parallel counting walk: some worker pops a pending task key `k`
(tasks live in the shared injector queue and the per-worker deques; the
crossbeam deques deliver every pushed task to exactly one popper, so the
pending work is one combined pool, and which task is taken next is
scheduler-dependent). If the storage holds `k`, the shared atomic
`total_entries` counter is incremented and a Dir entry's children keys are
pushed as new tasks; if not, nothing is added. The state is (pending task
pool, total_entries). -/
inductive CountMultiStep (st : GenericStorage) :
    List String × Nat → List String × Nat → Prop
  | found (p₁ p₂ : List String) (k : String) (e : Entry) (n : Nat)
      (he : MemStorage.get st k = some e) :
      CountMultiStep st (p₁ ++ k :: p₂, n) (p₁ ++ p₂ ++ e.get_children, n + 1)
  | miss (p₁ p₂ : List String) (k : String) (n : Nat)
      (he : MemStorage.get st k = none) :
      CountMultiStep st (p₁ ++ k :: p₂, n) (p₁ ++ p₂, n)

/-- One step of DirEntry::calculate_size_all_children_multi (src/dir.rs lines
178-233): as `CountMultiStep`, but the shared `total_size` counter instead
accumulates `entry.get_size()` of every found entry. -/
inductive SizeMultiStep (st : GenericStorage) :
    List String × Nat → List String × Nat → Prop
  | found (p₁ p₂ : List String) (k : String) (e : Entry) (n : Nat)
      (he : MemStorage.get st k = some e) :
      SizeMultiStep st (p₁ ++ k :: p₂, n) (p₁ ++ p₂ ++ e.get_children, n + e.get_size)
  | miss (p₁ p₂ : List String) (k : String) (n : Nat)
      (he : MemStorage.get st k = none) :
      SizeMultiStep st (p₁ ++ k :: p₂, n) (p₁ ++ p₂, n)

/-- A complete run of count_entries_multi starting from the root's children
keys: the workers run until the termination protocol fires with every pending
task processed (the terminal pool is empty), yielding the final counter. -/
def CountMultiRun (st : GenericStorage) (children : List String) (n : Nat) : Prop :=
  Relation.ReflTransGen (CountMultiStep st) (children, 0) ([], n)

/-- A complete run of calculate_size_all_children_multi. -/
def SizeMultiRun (st : GenericStorage) (children : List String) (n : Nat) : Prop :=
  Relation.ReflTransGen (SizeMultiStep st) (children, 0) ([], n)

/-- Child subtrees of a node (empty for a file). -/
def FsTree.childTrees : FsTree → List FsTree
  | .file _ _ => []
  | .dir _ _ cs => cs

/-- The Directory children of a node: the tasks add_children_to_queue
(src/dir.rs lines 416-430) pushes onto the scheduler when the node is
expanded (its File children are stored directly and never become tasks). -/
def FsTree.dirChildren (t : FsTree) : List FsTree :=
  t.childTrees.filter (fun c => c.isDir)

mutual
/-- Every directory node in a subtree, each as the subtree rooted at it:
exactly the directory-expansion tasks a full crawl of the subtree pushes. -/
def FsTree.allDirTrees : FsTree → List FsTree
  | .file _ _ => []
  | .dir p m cs => FsTree.dir p m cs :: forestAllDirTrees cs

/-- All directory nodes of a forest. -/
def forestAllDirTrees : List FsTree → List FsTree
  | [] => []
  | t :: ts => FsTree.allDirTrees t ++ forestAllDirTrees ts
end

/-- Program counter of one worker of load_all_children_with_storage
(src/dir.rs lines 342-390). The loop body: find_task; on `Some(task)` the
in-flight counter is incremented only AFTER the pop, the task is expanded
(its Directory children pushed onto the global injector, every child entry
stored) and the counter decremented; then the three-part termination check
reads the counter, the global queue's emptiness and the own deque's
emptiness as three separate, non-atomic observations. -/
inductive WPc where
  | start
  | got (t : FsTree)
  | run (t : FsTree)
  | stored
  | checkC
  | checkG
  | checkL
  | exited

/-- Shared state of a crawl with `n` workers: the global injector queue, the
per-worker local deques, the per-worker program counters, the in-flight
`AtomicIsize` counter, and the history of popped tasks (most recent first).
Queue contents are kept as lists read up to permutation: the claims under
verification are insensitive to intra-queue order, so steal/pop order inside
a queue is left nondeterministic. -/
structure CrawlState (n : Nat) where
  global : List FsTree
  locals : Fin n → List FsTree
  pcs : Fin n → WPc
  counter : Int
  popped : List FsTree

/-- One atomic step of the crawl worker pool (src/dir.rs lines 342-390).
Pops (find_task, src/dir.rs lines 448-465): a worker takes from its own
deque, or — when its deque is empty — steals from the global injector
(`steal_batch_and_pop`, possibly relocating a batch into its own deque) or
from a peer's deque; `findNone` is find_task reporting no task (its
emptiness observations are themselves unsynchronized, and a worker whose
deque is empty can observe nothing to steal). The counter increment,
the expansion push, the decrement, and each of the three termination-check
reads are separate steps, exactly as the code separates them. -/
inductive CrawlStep {n : Nat} : CrawlState n → CrawlState n → Prop
  | popLocal (s : CrawlState n) (i : Fin n) (t : FsTree) (rest : List FsTree)
      (hpc : s.pcs i = WPc.start) (hperm : (s.locals i).Perm (t :: rest)) :
      CrawlStep s { s with locals := Function.update s.locals i rest,
                           pcs := Function.update s.pcs i (WPc.got t),
                           popped := t :: s.popped }
  | stealGlobal (s : CrawlState n) (i : Fin n) (t : FsTree) (batch rest : List FsTree)
      (hpc : s.pcs i = WPc.start) (hloc : s.locals i = [])
      (hperm : s.global.Perm (t :: (batch ++ rest))) :
      CrawlStep s { s with global := rest,
                           locals := Function.update s.locals i batch,
                           pcs := Function.update s.pcs i (WPc.got t),
                           popped := t :: s.popped }
  | stealPeer (s : CrawlState n) (i j : Fin n) (t : FsTree) (rest : List FsTree)
      (hij : j ≠ i) (hpc : s.pcs i = WPc.start) (hloc : s.locals i = [])
      (hperm : (s.locals j).Perm (t :: rest)) :
      CrawlStep s { s with locals := Function.update s.locals j rest,
                           pcs := Function.update s.pcs i (WPc.got t),
                           popped := t :: s.popped }
  | findNone (s : CrawlState n) (i : Fin n)
      (hpc : s.pcs i = WPc.start) (hloc : s.locals i = []) :
      CrawlStep s { s with pcs := Function.update s.pcs i WPc.checkC }
  | incCounter (s : CrawlState n) (i : Fin n) (t : FsTree)
      (hpc : s.pcs i = WPc.got t) :
      CrawlStep s { s with counter := s.counter + 1,
                           pcs := Function.update s.pcs i (WPc.run t) }
  | process (s : CrawlState n) (i : Fin n) (t : FsTree)
      (hpc : s.pcs i = WPc.run t) :
      CrawlStep s { s with global := s.global ++ t.dirChildren,
                           pcs := Function.update s.pcs i WPc.stored }
  | decCounter (s : CrawlState n) (i : Fin n)
      (hpc : s.pcs i = WPc.stored) :
      CrawlStep s { s with counter := s.counter - 1,
                           pcs := Function.update s.pcs i WPc.checkC }
  | checkCounterPass (s : CrawlState n) (i : Fin n)
      (hpc : s.pcs i = WPc.checkC) (h : s.counter ≤ 0) :
      CrawlStep s { s with pcs := Function.update s.pcs i WPc.checkG }
  | checkCounterFail (s : CrawlState n) (i : Fin n)
      (hpc : s.pcs i = WPc.checkC) (h : 0 < s.counter) :
      CrawlStep s { s with pcs := Function.update s.pcs i WPc.start }
  | checkGlobalPass (s : CrawlState n) (i : Fin n)
      (hpc : s.pcs i = WPc.checkG) (h : s.global = []) :
      CrawlStep s { s with pcs := Function.update s.pcs i WPc.checkL }
  | checkGlobalFail (s : CrawlState n) (i : Fin n)
      (hpc : s.pcs i = WPc.checkG) (h : s.global ≠ []) :
      CrawlStep s { s with pcs := Function.update s.pcs i WPc.start }
  | checkLocalPass (s : CrawlState n) (i : Fin n)
      (hpc : s.pcs i = WPc.checkL) (h : s.locals i = []) :
      CrawlStep s { s with pcs := Function.update s.pcs i WPc.exited }
  | checkLocalFail (s : CrawlState n) (i : Fin n)
      (hpc : s.pcs i = WPc.checkL) (h : s.locals i ≠ []) :
      CrawlStep s { s with pcs := Function.update s.pcs i WPc.start }

/-- Initial crawl state: before the workers are spawned, the root's listing
has been taken, its Directory children pushed onto the global injector and
its File children stored (src/dir.rs lines 313-319); every worker starts at
the top of its loop and the in-flight counter at 0. -/
def crawlInit (n : Nat) (cs : List FsTree) : CrawlState n :=
  { global := cs.filter (fun c => c.isDir),
    locals := fun _ => [],
    pcs := fun _ => WPc.start,
    counter := 0,
    popped := [] }

/-- Reachability of a crawl state from the initial state of a crawl of a
root whose listing is `cs`, with `n` workers. -/
def CrawlReachable (n : Nat) (cs : List FsTree) (s : CrawlState n) : Prop :=
  Relation.ReflTransGen CrawlStep (crawlInit n cs) s

/-- Directory-expansion tasks a worker still owes the queues while it holds
a popped task in hand: the directory nodes strictly below the held task
(the task itself is accounted as popped the moment it is taken). -/
def WPc.handDirs : WPc → List FsTree
  | .got t => forestAllDirTrees t.childTrees
  | .run t => forestAllDirTrees t.childTrees
  | _ => []

/-- Directory-expansion tasks a queue still owes: every queued task plus all
directory nodes strictly below it, as a multiset (queue order immaterial). -/
def taskDirs (l : List FsTree) : Multiset FsTree :=
  ((l : Multiset FsTree).map fun t => (FsTree.allDirTrees t : Multiset FsTree)).sum

/-- Inductive invariant of the crawl worker pool, for a crawl of a root whose
listing is `cs`. Every queued or in-hand task is a Directory; a worker with a
nonempty deque has not exited; when the global queue is nonempty some worker
is live and not at the final (local-deque) read of its termination check; and
the directory-expansion tasks are conserved: the popped tasks plus the tasks
still owed by the queues and the workers' hands are exactly the directory
nodes of the listing, as a multiset. -/
structure CrawlInv {n : Nat} (cs : List FsTree) (s : CrawlState n) : Prop where
  global_dir : ∀ t ∈ s.global, t.isDir = true
  locals_dir : ∀ i, ∀ t ∈ s.locals i, t.isDir = true
  hand_dir : ∀ i t, s.pcs i = WPc.got t ∨ s.pcs i = WPc.run t → t.isDir = true
  locals_live : ∀ i, s.locals i ≠ [] → s.pcs i ≠ WPc.exited
  global_live : s.global ≠ [] → ∃ i, s.pcs i ≠ WPc.checkL ∧ s.pcs i ≠ WPc.exited
  conserve : (↑s.popped : Multiset FsTree) + taskDirs s.global
      + (Finset.univ.sum fun i : Fin n => taskDirs (s.locals i))
      + (Finset.univ.sum fun i : Fin n => (↑((s.pcs i).handDirs) : Multiset FsTree))
      = ↑(forestAllDirTrees cs)

/-- Construction success for a capture result (Rust `Result::is_ok`). -/
def constructionOk {α : Type} (e : Except String α) : Prop := ∃ a, e = Except.ok a

/-- Error value standing for a timestamp the platform/filesystem does not
support (stored inside the entry, per src/file.rs lines 40-51). -/
def noTime : TimeResult := Except.error "unsupported"

/-- Node metadata with all three timestamps unavailable. -/
def metaOf (name : String) (size : Nat) : NodeMeta :=
  ⟨name, size, noTime, noTime, noTime⟩

/-- Sample file node: path key "b", 5 bytes. -/
def tFb : FsTree := FsTree.file "b" (metaOf "b" 5)

/-- Sample directory node: path key "a", stat size 4096, one file child. -/
def tDa : FsTree := FsTree.dir "a" (metaOf "a" 4096) [tFb]

/-- Sample empty directory node: path key "c", stat size 4096. -/
def tDc : FsTree := FsTree.dir "c" (metaOf "c" 4096) []

/-- Sample root DirEntry with the given children keys (the wrapper's displayed
root after a crawl). -/
def sampleRoot (children : List String) : DirEntry :=
  ⟨"r", "r", 4096, 0, noTime, noTime, noTime, children, none⟩

/-- Sample leaf directory task for crawl traces: path key "B". -/
def tB : FsTree := FsTree.dir "B" (metaOf "B" 0) []

/-- Sample directory task containing one subdirectory: path key "A". -/
def tA : FsTree := FsTree.dir "A" (metaOf "A" 0) [tB]

/-- Root listing for the C4 trace: one directory A, which contains B. -/
def csC4 : List FsTree := [tA]

/-- Crawl trace (2 workers, listing `csC4`), state 0: initial. -/
def c4s0 : CrawlState 2 := crawlInit 2 csC4

/-- State 1: worker 0 steals A from the global injector (batch empty). The
global queue is now empty while A is in worker 0's hand, the in-flight
counter still 0 — the counter is only incremented after the pop. -/
def c4s1 : CrawlState 2 :=
  { c4s0 with global := [],
              locals := Function.update c4s0.locals 0 [],
              pcs := Function.update c4s0.pcs 0 (WPc.got tA),
              popped := tA :: c4s0.popped }

/-- State 2: worker 1 finds no task (its deque and the global queue are
empty) and enters the termination check. -/
def c4s2 : CrawlState 2 :=
  { c4s1 with pcs := Function.update c4s1.pcs 1 WPc.checkC }

/-- State 3: worker 1 reads the in-flight counter: 0 ≤ 0, check passes. -/
def c4s3 : CrawlState 2 :=
  { c4s2 with pcs := Function.update c4s2.pcs 1 WPc.checkG }

/-- State 4: worker 1 reads the global queue: empty, check passes. -/
def c4s4 : CrawlState 2 :=
  { c4s3 with pcs := Function.update c4s3.pcs 1 WPc.checkL }

/-- State 5: worker 0 increments the in-flight counter. -/
def c4s5 : CrawlState 2 :=
  { c4s4 with counter := c4s4.counter + 1,
              pcs := Function.update c4s4.pcs 0 (WPc.run tA) }

/-- State 6: worker 0 expands A, pushing the fresh Directory task B onto the
global queue. Worker 1 is still at its local-queue read. -/
def c4s6 : CrawlState 2 :=
  { c4s5 with global := c4s5.global ++ tA.dirChildren,
              pcs := Function.update c4s5.pcs 0 WPc.stored }

/-- State 7: worker 1 reads its own deque: empty, so its termination check
fires and it exits — while the pushed Directory task B sits unprocessed in
the global queue. -/
def c4s7 : CrawlState 2 :=
  { c4s6 with pcs := Function.update c4s6.pcs 1 WPc.exited }

/-- Root listing for the C4 witness trace: the single leaf directory B. -/
def csW4 : List FsTree := [tB]

/-- Witness crawl trace (1 worker, listing `csW4`), state 0: initial. -/
def c4w0 : CrawlState 1 := crawlInit 1 csW4

/-- Witness state 1: the worker steals B from the global injector. -/
def c4w1 : CrawlState 1 :=
  { c4w0 with global := [],
              locals := Function.update c4w0.locals 0 [],
              pcs := Function.update c4w0.pcs 0 (WPc.got tB),
              popped := tB :: c4w0.popped }

/-- Witness state 2: the worker increments the in-flight counter. -/
def c4w2 : CrawlState 1 :=
  { c4w1 with counter := c4w1.counter + 1,
              pcs := Function.update c4w1.pcs 0 (WPc.run tB) }

/-- Witness state 3: the worker expands B (no subdirectories to push). -/
def c4w3 : CrawlState 1 :=
  { c4w2 with global := c4w2.global ++ tB.dirChildren,
              pcs := Function.update c4w2.pcs 0 WPc.stored }

/-- Witness state 4: the worker decrements the in-flight counter. -/
def c4w4 : CrawlState 1 :=
  { c4w3 with counter := c4w3.counter - 1,
              pcs := Function.update c4w3.pcs 0 WPc.checkC }

/-- Witness state 5: counter read 0 ≤ 0, check passes. -/
def c4w5 : CrawlState 1 :=
  { c4w4 with pcs := Function.update c4w4.pcs 0 WPc.checkG }

/-- Witness state 6: global queue read empty, check passes. -/
def c4w6 : CrawlState 1 :=
  { c4w5 with pcs := Function.update c4w5.pcs 0 WPc.checkL }

/-- Witness state 7: own deque read empty, the worker exits; the crawl is
terminal. -/
def c4w7 : CrawlState 1 :=
  { c4w6 with pcs := Function.update c4w6.pcs 0 WPc.exited }

theorem vecPop_eq {α : Type} {q : List α} {x : α} {rest : List α}
    (h : q.reverse = x :: rest) : vecPop q = some (x, rest.reverse) := by
  unfold vecPop
  rw [h]

theorem count_loop_term (st : GenericStorage) (fuel acc : Nat) {q : List String}
    (h : q.reverse = []) : count_entries_loop st (fuel + 1) q acc = some acc := by
  have hq : q = [] := by simpa using congrArg List.reverse h
  subst hq
  rfl

theorem count_loop_step_absent (st : GenericStorage) (fuel acc : Nat)
    {q rest : List String} {x : String} (h : q.reverse = x :: rest)
    (hget : MemStorage.get st x = none) :
    count_entries_loop st (fuel + 1) q acc = count_entries_loop st fuel rest.reverse acc := by
  simp only [count_entries_loop, vecPop_eq h, hget]

theorem count_loop_step_file (st : GenericStorage) (fuel acc : Nat)
    {q rest : List String} {x : String} {f : FileEntry} (h : q.reverse = x :: rest)
    (hget : MemStorage.get st x = some (Entry.File f)) :
    count_entries_loop st (fuel + 1) q acc =
      count_entries_loop st fuel rest.reverse (acc + 1) := by
  simp only [count_entries_loop, vecPop_eq h, hget]

theorem count_loop_step_dir (st : GenericStorage) (fuel acc : Nat)
    {q rest : List String} {x : String} {d : DirEntry} (h : q.reverse = x :: rest)
    (hget : MemStorage.get st x = some (Entry.Dir d)) :
    count_entries_loop st (fuel + 1) q acc =
      count_entries_loop st fuel (rest.reverse ++ d.children) (acc + 1) := by
  simp only [count_entries_loop, vecPop_eq h, hget]

theorem size_loop_term (st : GenericStorage) (fuel acc : Nat) {q : List String}
    (h : q.reverse = []) : calculate_size_loop st (fuel + 1) q acc = some acc := by
  have hq : q = [] := by simpa using congrArg List.reverse h
  subst hq
  rfl

theorem size_loop_step_absent (st : GenericStorage) (fuel acc : Nat)
    {q rest : List String} {x : String} (h : q.reverse = x :: rest)
    (hget : MemStorage.get st x = none) :
    calculate_size_loop st (fuel + 1) q acc = calculate_size_loop st fuel rest.reverse acc := by
  simp only [calculate_size_loop, vecPop_eq h, hget]

theorem size_loop_step_file (st : GenericStorage) (fuel acc : Nat)
    {q rest : List String} {x : String} {f : FileEntry} (h : q.reverse = x :: rest)
    (hget : MemStorage.get st x = some (Entry.File f)) :
    calculate_size_loop st (fuel + 1) q acc =
      calculate_size_loop st fuel rest.reverse (acc + f.size) := by
  simp only [calculate_size_loop, vecPop_eq h, hget]

theorem size_loop_step_dir (st : GenericStorage) (fuel acc : Nat)
    {q rest : List String} {x : String} {d : DirEntry} (h : q.reverse = x :: rest)
    (hget : MemStorage.get st x = some (Entry.Dir d)) :
    calculate_size_loop st (fuel + 1) q acc =
      calculate_size_loop st fuel (rest.reverse ++ d.children) (acc + d.size) := by
  simp only [calculate_size_loop, vecPop_eq h, hget]

/-- C5: For every key k and value v, the Store satisfies: set(k, v) followed
by get(k) returns a value equal to v; after pull_out(k) a subsequent get(k)
returns none; and remove(k) leaves the store in exactly the same state as
pull_out(k), the removed value merely being discarded instead of returned. -/
theorem store_round_trip {K V : Type} [DecidableEq K] (m : MemStorage K V) (k : K) (v : V) :
    MemStorage.get (MemStorage.set m k v) k = some v ∧
    MemStorage.get (MemStorage.pull_out m k).2 k = none ∧
    MemStorage.remove m k = (MemStorage.pull_out m k).2 := by
  refine ⟨?_, ?_, rfl⟩ <;>
    simp [MemStorage.get, MemStorage.set, MemStorage.pull_out]

/-- C8: With no Store attached, count_entries on a directory returns the
length of its immediate children list and calculate_size returns 0, for any
fuel — both return immediately without erroring or walking. -/
theorem no_store_degrades_to_direct_info (d : DirEntry) (fuel : Nat) :
    DirEntry.count_entries d none fuel = some d.children.length ∧
    DirEntry.calculate_size_all_children d none fuel = some 0 :=
  ⟨rfl, rfl⟩

/-- C10: A child key absent from the Store is silently skipped by both
aggregation walks: popping it neither counts it nor adds any size, and the
walk simply continues with the remaining keys (no failure). -/
theorem absent_key_silently_skipped (st : GenericStorage) (k : String)
    (q : List String) (acc fuel : Nat) (h : MemStorage.get st k = none) :
    count_entries_loop st (fuel + 1) (q ++ [k]) acc = count_entries_loop st fuel q acc ∧
    calculate_size_loop st (fuel + 1) (q ++ [k]) acc = calculate_size_loop st fuel q acc := by
  have hrev : (q ++ [k]).reverse = k :: q.reverse := by simp
  constructor
  · rw [count_loop_step_absent st fuel acc hrev h, List.reverse_reverse]
  · rw [size_loop_step_absent st fuel acc hrev h, List.reverse_reverse]

theorem absent_key_silently_skipped_witness :
    MemStorage.get (MemStorage.new String Entry) "a" = none ∧
    count_entries_loop (MemStorage.new String Entry) 1 ([] ++ ["a"]) 0 =
      count_entries_loop (MemStorage.new String Entry) 0 [] 0 ∧
    calculate_size_loop (MemStorage.new String Entry) 1 ([] ++ ["a"]) 0 =
      calculate_size_loop (MemStorage.new String Entry) 0 [] 0 := by
  refine ⟨rfl, ?_⟩
  exact absent_key_silently_skipped (MemStorage.new String Entry) "a" [] 0 0 rfl

/-- C9: If the wrapper's displayed Entry is a File, load_all_children
returns an empty error list and the wrapper — its displayed Entry and its
attached Store — is returned completely unchanged. -/
theorem load_on_file_wrapper_is_noop (w : EntryWrapper) (f : FileEntry)
    (listing : List FsTree) (h : w.entry = Entry.File f) :
    EntryWrapper.load_all_children w listing = some (w, []) := by
  simp only [EntryWrapper.load_all_children, h]

theorem load_on_file_wrapper_is_noop_witness :
    EntryWrapper.load_all_children
        ⟨Entry.File ⟨"b", "b", 5, noTime, noTime, noTime, none⟩, none⟩ [tDa] =
      some (⟨Entry.File ⟨"b", "b", 5, noTime, noTime, noTime, none⟩, none⟩, []) :=
  load_on_file_wrapper_is_noop _ ⟨"b", "b", 5, noTime, noTime, noTime, none⟩ [tDa] rfl

/-- C7: Entry construction succeeds exactly when the path can be stat'ed and
a decodable final path component exists; when it succeeds, each of the three
timestamps is stored verbatim inside the constructed Entry — an unavailable
timestamp (an error value in the metadata) never fails construction. -/
theorem capture_fails_iff_stat_or_name (p : PathObj) (parent : Option String) :
    (constructionOk (Entry.new_with_parent p parent) ↔
      ((∃ s, p.file_name = some (some s)) ∧ ∃ md, p.metadata = Except.ok md)) ∧
    (∀ s md, p.file_name = some (some s) → p.metadata = Except.ok md →
      Entry.new_with_parent p parent = Except.ok (if p.is_dir then
          Entry.Dir ⟨s, p.display, md.len, 0, md.accessed, md.modified, md.created, [], parent⟩
        else
          Entry.File ⟨s, p.display, md.len, md.accessed, md.modified, md.created, parent⟩)) := by
  obtain ⟨disp, fn, md, isd⟩ := p
  constructor
  · rcases fn with _ | fn
    · simp [Entry.new_with_parent, FileEntry.new, DirEntry.new, constructionOk]
      cases isd <;> simp [Except.map]
    · rcases fn with _ | s
      · simp [Entry.new_with_parent, FileEntry.new, DirEntry.new, constructionOk]
        cases isd <;> simp [Except.map]
      · rcases md with e | md
        · simp [Entry.new_with_parent, FileEntry.new, DirEntry.new, constructionOk]
          cases isd <;> simp [Except.map]
        · simp [Entry.new_with_parent, FileEntry.new, DirEntry.new, constructionOk]
          cases isd <;> simp [Except.map]
  · intro s md2 hs hmd
    cases hs
    cases hmd
    cases isd <;>
      simp [Entry.new_with_parent, FileEntry.new, DirEntry.new, Except.map]

theorem capture_witness :
    Entry.new_with_parent ⟨"p", some (some "p"), Except.ok ⟨7, noTime, noTime, noTime⟩, false⟩
        none =
      Except.ok (Entry.File ⟨"p", "p", 7, noTime, noTime, noTime, none⟩) := by
  have h :=
    (capture_fails_iff_stat_or_name
        ⟨"p", some (some "p"), Except.ok ⟨7, noTime, noTime, noTime⟩, false⟩ none).2
      "p" ⟨7, noTime, noTime, noTime⟩ rfl rfl
  simpa using h

/-- C6 counterexample: a wrapper displaying a Directory that has no children
on disk. Its first load completes (returning the wrapper unchanged with an
empty error list), yet a second load_all_children on the loaded wrapper does
NOT fail: the guard `self.children.len() != 0` (src/dir.rs line 299) sees an
empty children list and lets the reload proceed — refuting the claim that a
second load panics for EVERY wrapper whose first load completed. -/
theorem reload_after_empty_load_does_not_panic :
    EntryWrapper.load_all_children ⟨Entry.Dir (sampleRoot []), none⟩ [] =
      some (⟨Entry.Dir (sampleRoot []), none⟩, []) ∧
    EntryWrapper.load_all_children ⟨Entry.Dir (sampleRoot []), none⟩ [] ≠ none := by
  constructor
  · rfl
  · intro h
    simp [EntryWrapper.load_all_children, DirEntry.load_all_children_with_storage,
      sampleRoot] at h

/-- C6 amended: calling load_all_children a second time without a reset
panics (modelled as `none`) for every wrapper displaying a Directory whose
first load completed AND discovered at least one child — the reload guard
tests `children.len() != 0`, so a first load that found no children leaves
the guard disarmed. -/
theorem reload_guard_panics (w w2 : EntryWrapper) (d : DirEntry)
    (listing listing2 : List FsTree) (errs : List String)
    (hd : w.entry = Entry.Dir d)
    (hload : EntryWrapper.load_all_children w listing = some (w2, errs))
    (hne : listing ≠ []) :
    EntryWrapper.load_all_children w2 listing2 = none := by
  simp only [EntryWrapper.load_all_children, hd] at hload
  unfold DirEntry.load_all_children_with_storage at hload
  by_cases hc : d.children.length ≠ 0
  · simp [hc] at hload
  · simp only [hc, if_false] at hload
    obtain ⟨hw2, _⟩ := by simpa using hload
    have hentry : w2.entry = Entry.Dir { d with children := listing.map FsTree.path } := by
      rw [← hw2]
    have hlen : (listing.map FsTree.path).length ≠ 0 := by
      simpa using hne
    simp only [EntryWrapper.load_all_children, hentry]
    unfold DirEntry.load_all_children_with_storage
    rw [if_pos
      (show ({ d with children := listing.map FsTree.path } : DirEntry).children.length ≠ 0
        from hlen)]

theorem reload_guard_panics_witness :
    EntryWrapper.load_all_children ⟨Entry.Dir (sampleRoot ["b"]), none⟩ [] = none :=
  reload_guard_panics ⟨Entry.Dir (sampleRoot []), none⟩ ⟨Entry.Dir (sampleRoot ["b"]), none⟩
    (sampleRoot []) [tFb] [] [] rfl rfl (by simp)

theorem map_reverse_eq {α β : Type} (f : α → β) (l : List α) :
    (l.map f).reverse = l.reverse.map f := by
  simp

theorem forestNodeCount_cons (t : FsTree) (ts : List FsTree) :
    forestNodeCount (t :: ts) = t.nodeCount + forestNodeCount ts := rfl

theorem forestSizeSum_cons (t : FsTree) (ts : List FsTree) :
    forestSizeSum (t :: ts) = t.sizeSum + forestSizeSum ts := rfl

theorem forestNodeCount_append (a b : List FsTree) :
    forestNodeCount (a ++ b) = forestNodeCount a + forestNodeCount b := by
  induction a with
  | nil => simp [forestNodeCount]
  | cons t ts ih =>
      rw [List.cons_append, forestNodeCount_cons, forestNodeCount_cons, ih]
      omega

theorem forestSizeSum_append (a b : List FsTree) :
    forestSizeSum (a ++ b) = forestSizeSum a + forestSizeSum b := by
  induction a with
  | nil => simp [forestSizeSum]
  | cons t ts ih =>
      rw [List.cons_append, forestSizeSum_cons, forestSizeSum_cons, ih]
      omega

theorem FsTree.nodeCount_pos (t : FsTree) : 1 ≤ t.nodeCount := by
  cases t with
  | file p m => exact le_refl 1
  | dir p m cs =>
      show 1 ≤ 1 + forestNodeCount cs
      omega

theorem foldl_set_not_mem (l : List (String × Entry)) (st0 : GenericStorage) (k : String)
    (h : k ∉ l.map Prod.fst) :
    (l.foldl (fun st kv => MemStorage.set st kv.1 kv.2) st0) k = st0 k := by
  induction l generalizing st0 with
  | nil => rfl
  | cons kv rest ih =>
      simp only [List.map_cons, List.mem_cons] at h
      push_neg at h
      simp only [List.foldl_cons]
      rw [ih _ h.2]
      simp [MemStorage.set, h.1]

theorem foldl_set_mem (l : List (String × Entry)) (k : String) (v : Entry)
    (hnd : (l.map Prod.fst).Nodup) (hm : (k, v) ∈ l) (st0 : GenericStorage) :
    (l.foldl (fun st kv => MemStorage.set st kv.1 kv.2) st0) k = some v := by
  induction l generalizing st0 with
  | nil => cases hm
  | cons kv rest ih =>
      simp only [List.map_cons, List.nodup_cons] at hnd
      rcases List.mem_cons.mp hm with heq | hmem
      · cases heq
        simp only [List.foldl_cons]
        rw [foldl_set_not_mem rest _ k (by simpa using hnd.1)]
        simp [MemStorage.set]
      · exact ih hnd.2 hmem _

theorem mem_forestStoreList {par : Option String} {cs : List FsTree} {c : FsTree}
    (hc : c ∈ cs) {kv : String × Entry} (hkv : kv ∈ storeList par c) :
    kv ∈ forestStoreList par cs := by
  induction cs with
  | nil => cases hc
  | cons t ts ih =>
      rcases List.mem_cons.mp hc with h | h
      · cases h
        exact List.mem_append_left _ hkv
      · exact List.mem_append_right _ (ih h)

theorem nodeCount_le_forest {c : FsTree} {cs : List FsTree} (h : c ∈ cs) :
    c.nodeCount ≤ forestNodeCount cs := by
  induction cs with
  | nil => cases h
  | cons t ts ih =>
      rcases List.mem_cons.mp h with h1 | h1
      · cases h1
        show c.nodeCount ≤ c.nodeCount + forestNodeCount ts
        omega
      · have := ih h1
        show c.nodeCount ≤ t.nodeCount + forestNodeCount ts
        omega

theorem covers_of_subset (L : List (String × Entry)) (hnd : (L.map Prod.fst).Nodup) :
    ∀ (N : Nat) (t : FsTree) (par : Option String), t.nodeCount ≤ N →
      (∀ kv ∈ storeList par t, kv ∈ L) → Covers (storeEntries L) t := by
  intro N
  induction N with
  | zero =>
      intro t par hle _
      have := t.nodeCount_pos
      omega
  | succ N ih =>
      intro t par hle hsub
      cases t with
      | file p m =>
          refine Covers.file p m par ?_
          have hm : (p, entryOf par (FsTree.file p m)) ∈ L := by
            apply hsub
            simp [storeList]
          exact foldl_set_mem L _ _ hnd hm _
      | dir p m cs =>
          refine Covers.dir p m cs par ?_ ?_
          · have hm : (p, entryOf par (FsTree.dir p m cs)) ∈ L := by
              apply hsub
              simp [storeList]
            exact foldl_set_mem L _ _ hnd hm _
          · intro c hc
            refine ih c (some p) ?_ ?_
            · have h1 := nodeCount_le_forest hc
              have h2 : (FsTree.dir p m cs).nodeCount = 1 + forestNodeCount cs := rfl
              omega
            · intro kv hkv
              apply hsub
              exact List.mem_cons.mpr (Or.inr (mem_forestStoreList hc hkv))

theorem populated_covers (rootPath : String) (cs : List FsTree)
    (hnd : (forestKeys (some rootPath) cs).Nodup) :
    ∀ c ∈ cs, Covers (populated rootPath cs) c := by
  intro c hc
  exact covers_of_subset _ hnd c.nodeCount c (some rootPath) (le_refl _)
    (fun kv hkv => mem_forestStoreList hc hkv)

theorem count_loop_covers (st : GenericStorage) :
    ∀ (fuel : Nat) (f : List FsTree) (acc : Nat),
      (∀ t ∈ f, Covers st t) → forestNodeCount f < fuel →
      count_entries_loop st fuel (f.map FsTree.path) acc = some (acc + forestNodeCount f) := by
  intro fuel
  induction fuel with
  | zero =>
      intro f acc _ h
      omega
  | succ fuel ih =>
      intro f acc hcov hlt
      cases hrev : f.reverse with
      | nil =>
          have hf : f = [] := by
            have := congrArg List.reverse hrev
            simpa using this
          subst hf
          rw [count_loop_term st fuel acc (by simp)]
          simp [forestNodeCount]
      | cons t r =>
          have hf : f = r.reverse ++ [t] := by
            have := congrArg List.reverse hrev
            simpa using this
          have hstack : (f.map FsTree.path).reverse = t.path :: r.map FsTree.path := by
            rw [hf]
            simp
          have htf : t ∈ f := by
            rw [hf]
            simp
          have hwf : forestNodeCount f = forestNodeCount r.reverse + t.nodeCount := by
            rw [hf, forestNodeCount_append]
            simp [forestNodeCount]
          have hcov2 : ∀ u ∈ r.reverse, Covers st u := by
            intro u hu
            apply hcov
            rw [hf]
            exact List.mem_append_left _ hu
          have hcovt := hcov t htf
          cases hcovt with
          | file p m par hget =>
              rw [count_loop_step_file st fuel acc hstack hget, map_reverse_eq]
              rw [ih r.reverse (acc + 1) hcov2 (by
                have := FsTree.nodeCount_pos (FsTree.file p m)
                omega)]
              have hn : (FsTree.file p m).nodeCount = 1 := rfl
              congr 1
              omega
          | dir p m cs par hget hc =>
              rw [count_loop_step_dir st fuel acc hstack hget, map_reverse_eq]
              show count_entries_loop st fuel
                (r.reverse.map FsTree.path ++ cs.map FsTree.path) (acc + 1) =
                some (acc + forestNodeCount f)
              rw [← List.map_append]
              have hcov3 : ∀ u ∈ r.reverse ++ cs, Covers st u := by
                intro u hu
                rcases List.mem_append.mp hu with h1 | h1
                · exact hcov2 u h1
                · exact hc u h1
              have hn : (FsTree.dir p m cs).nodeCount = 1 + forestNodeCount cs := rfl
              have hwf2 : forestNodeCount (r.reverse ++ cs) =
                  forestNodeCount r.reverse + forestNodeCount cs := forestNodeCount_append _ _
              rw [ih (r.reverse ++ cs) (acc + 1) hcov3 (by omega)]
              congr 1
              omega

theorem size_loop_covers (st : GenericStorage) :
    ∀ (fuel : Nat) (f : List FsTree) (acc : Nat),
      (∀ t ∈ f, Covers st t) → forestNodeCount f < fuel →
      calculate_size_loop st fuel (f.map FsTree.path) acc = some (acc + forestSizeSum f) := by
  intro fuel
  induction fuel with
  | zero =>
      intro f acc _ h
      omega
  | succ fuel ih =>
      intro f acc hcov hlt
      cases hrev : f.reverse with
      | nil =>
          have hf : f = [] := by
            have := congrArg List.reverse hrev
            simpa using this
          subst hf
          rw [size_loop_term st fuel acc (by simp)]
          simp [forestSizeSum]
      | cons t r =>
          have hf : f = r.reverse ++ [t] := by
            have := congrArg List.reverse hrev
            simpa using this
          have hstack : (f.map FsTree.path).reverse = t.path :: r.map FsTree.path := by
            rw [hf]
            simp
          have htf : t ∈ f := by
            rw [hf]
            simp
          have hwf : forestNodeCount f = forestNodeCount r.reverse + t.nodeCount := by
            rw [hf, forestNodeCount_append]
            simp [forestNodeCount]
          have hws : forestSizeSum f = forestSizeSum r.reverse + t.sizeSum := by
            rw [hf, forestSizeSum_append]
            simp [forestSizeSum]
          have hcov2 : ∀ u ∈ r.reverse, Covers st u := by
            intro u hu
            apply hcov
            rw [hf]
            exact List.mem_append_left _ hu
          have hcovt := hcov t htf
          cases hcovt with
          | file p m par hget =>
              rw [size_loop_step_file st fuel acc hstack hget, map_reverse_eq]
              show calculate_size_loop st fuel (r.reverse.map FsTree.path) (acc + m.size) =
                some (acc + forestSizeSum f)
              rw [ih r.reverse (acc + m.size) hcov2 (by
                have := FsTree.nodeCount_pos (FsTree.file p m)
                omega)]
              have hs : (FsTree.file p m).sizeSum = m.size := rfl
              congr 1
              omega
          | dir p m cs par hget hc =>
              rw [size_loop_step_dir st fuel acc hstack hget, map_reverse_eq]
              show calculate_size_loop st fuel
                (r.reverse.map FsTree.path ++ cs.map FsTree.path) (acc + m.size) =
                some (acc + forestSizeSum f)
              rw [← List.map_append]
              have hcov3 : ∀ u ∈ r.reverse ++ cs, Covers st u := by
                intro u hu
                rcases List.mem_append.mp hu with h1 | h1
                · exact hcov2 u h1
                · exact hc u h1
              have hn : (FsTree.dir p m cs).nodeCount = 1 + forestNodeCount cs := rfl
              have hs : (FsTree.dir p m cs).sizeSum = m.size + forestSizeSum cs := rfl
              have hwf2 : forestNodeCount (r.reverse ++ cs) =
                  forestNodeCount r.reverse + forestNodeCount cs := forestNodeCount_append _ _
              have hws2 : forestSizeSum (r.reverse ++ cs) =
                  forestSizeSum r.reverse + forestSizeSum cs := forestSizeSum_append _ _
              rw [ih (r.reverse ++ cs) (acc + m.size) hcov3 (by omega)]
              congr 1
              omega

theorem map_eq_append_cons {α β : Type} {g : α → β} {l : List α} {p₁ p₂ : List β} {k : β}
    (h : l.map g = p₁ ++ k :: p₂) :
    ∃ m₁ t m₂, l = m₁ ++ t :: m₂ ∧ m₁.map g = p₁ ∧ g t = k ∧ m₂.map g = p₂ := by
  induction p₁ generalizing l with
  | nil =>
      cases l with
      | nil => simp at h
      | cons a l2 =>
          simp only [List.map_cons, List.nil_append] at h
          injection h with h1 h2
          exact ⟨[], a, l2, rfl, rfl, h1, h2⟩
  | cons b bs ih =>
      cases l with
      | nil => simp at h
      | cons a l2 =>
          simp only [List.map_cons, List.cons_append] at h
          injection h with h1 h2
          obtain ⟨m₁, t, m₂, hl, hm1, ht, hm2⟩ := ih h2
          exact ⟨a :: m₁, t, m₂, by simp [hl], by simp [hm1, h1], ht, hm2⟩

theorem covers_get (st : GenericStorage) {t : FsTree} (h : Covers st t) :
    ∃ par, MemStorage.get st t.path = some (entryOf par t) := by
  cases h with
  | file p m par hg => exact ⟨par, hg⟩
  | dir p m cs par hg hc => exact ⟨par, hg⟩

theorem covers_children (st : GenericStorage) {p : String} {m : NodeMeta} {cs : List FsTree}
    (h : Covers st (FsTree.dir p m cs)) : ∀ c ∈ cs, Covers st c := by
  cases h with
  | dir p m cs par hg hc => exact hc

theorem entryOf_get_children (par : Option String) (t : FsTree) :
    (entryOf par t).get_children = t.childTrees.map FsTree.path := by
  cases t <;> rfl

theorem entryOf_get_size (par : Option String) (t : FsTree) :
    (entryOf par t).get_size = t.sizeSum - forestSizeSum t.childTrees := by
  cases t with
  | file p m =>
      show m.size = m.size - forestSizeSum []
      rfl
  | dir p m cs =>
      show m.size = (m.size + forestSizeSum cs) - forestSizeSum cs
      omega

theorem countMulti_step_preserve (st : GenericStorage) {a b : List String × Nat}
    (hstep : CountMultiStep st a b) (mf : List FsTree)
    (hq : a.1 = mf.map FsTree.path) (hcov : ∀ t ∈ mf, Covers st t) :
    ∃ mf2, b.1 = mf2.map FsTree.path ∧ (∀ t ∈ mf2, Covers st t) ∧
      b.2 + forestNodeCount mf2 = a.2 + forestNodeCount mf := by
  cases hstep with
  | found p₁ p₂ k e n he =>
      obtain ⟨m₁, t, m₂, hl, hm1, htk, hm2⟩ := map_eq_append_cons hq.symm
      subst hl
      have hcovt : Covers st t := hcov t (by simp)
      obtain ⟨par, hget⟩ := covers_get st hcovt
      rw [htk] at hget
      rw [he] at hget
      injection hget with hge
      subst hge
      have hcnt : forestNodeCount (m₁ ++ t :: m₂) =
          forestNodeCount m₁ + t.nodeCount + forestNodeCount m₂ := by
        rw [forestNodeCount_append, forestNodeCount_cons]
        omega
      cases t with
      | file p m =>
          refine ⟨m₁ ++ m₂, ?_, ?_, ?_⟩
          · show p₁ ++ p₂ ++ (entryOf par (FsTree.file p m)).get_children = _
            rw [entryOf_get_children]
            simp [FsTree.childTrees, ← hm1, ← hm2]
          · intro u hu
            apply hcov
            rcases List.mem_append.mp hu with h1 | h1
            · exact List.mem_append_left _ h1
            · exact List.mem_append_right _ (List.mem_cons_of_mem _ h1)
          · have h1 : (FsTree.file p m).nodeCount = 1 := rfl
            have h2 : forestNodeCount (m₁ ++ m₂) =
                forestNodeCount m₁ + forestNodeCount m₂ := forestNodeCount_append _ _
            omega
      | dir p m cs =>
          refine ⟨m₁ ++ m₂ ++ cs, ?_, ?_, ?_⟩
          · show p₁ ++ p₂ ++ (entryOf par (FsTree.dir p m cs)).get_children = _
            rw [entryOf_get_children]
            simp [FsTree.childTrees, ← hm1, ← hm2]
          · intro u hu
            rcases List.mem_append.mp hu with h1 | h1
            · apply hcov
              rcases List.mem_append.mp h1 with h2 | h2
              · exact List.mem_append_left _ h2
              · exact List.mem_append_right _ (List.mem_cons_of_mem _ h2)
            · exact covers_children st (hcov (FsTree.dir p m cs) (by simp)) u h1
          · have h1 : (FsTree.dir p m cs).nodeCount = 1 + forestNodeCount cs := rfl
            have h2 : forestNodeCount (m₁ ++ m₂ ++ cs) =
                forestNodeCount m₁ + forestNodeCount m₂ + forestNodeCount cs := by
              rw [forestNodeCount_append, forestNodeCount_append]
            omega
  | miss p₁ p₂ k n he =>
      obtain ⟨m₁, t, m₂, hl, hm1, htk, hm2⟩ := map_eq_append_cons hq.symm
      subst hl
      have hcovt : Covers st t := hcov t (by simp)
      obtain ⟨par, hget⟩ := covers_get st hcovt
      rw [htk] at hget
      rw [he] at hget
      cases hget

theorem sizeMulti_step_preserve (st : GenericStorage) {a b : List String × Nat}
    (hstep : SizeMultiStep st a b) (mf : List FsTree)
    (hq : a.1 = mf.map FsTree.path) (hcov : ∀ t ∈ mf, Covers st t) :
    ∃ mf2, b.1 = mf2.map FsTree.path ∧ (∀ t ∈ mf2, Covers st t) ∧
      b.2 + forestSizeSum mf2 = a.2 + forestSizeSum mf := by
  cases hstep with
  | found p₁ p₂ k e n he =>
      obtain ⟨m₁, t, m₂, hl, hm1, htk, hm2⟩ := map_eq_append_cons hq.symm
      subst hl
      have hcovt : Covers st t := hcov t (by simp)
      obtain ⟨par, hget⟩ := covers_get st hcovt
      rw [htk] at hget
      rw [he] at hget
      injection hget with hge
      subst hge
      have hcnt : forestSizeSum (m₁ ++ t :: m₂) =
          forestSizeSum m₁ + t.sizeSum + forestSizeSum m₂ := by
        rw [forestSizeSum_append, forestSizeSum_cons]
        omega
      cases t with
      | file p m =>
          refine ⟨m₁ ++ m₂, ?_, ?_, ?_⟩
          · show p₁ ++ p₂ ++ (entryOf par (FsTree.file p m)).get_children = _
            rw [entryOf_get_children]
            simp [FsTree.childTrees, ← hm1, ← hm2]
          · intro u hu
            apply hcov
            rcases List.mem_append.mp hu with h1 | h1
            · exact List.mem_append_left _ h1
            · exact List.mem_append_right _ (List.mem_cons_of_mem _ h1)
          · have h1 : (FsTree.file p m).sizeSum = m.size := rfl
            have h3 : (entryOf par (FsTree.file p m)).get_size = m.size := rfl
            have h2 : forestSizeSum (m₁ ++ m₂) =
                forestSizeSum m₁ + forestSizeSum m₂ := forestSizeSum_append _ _
            rw [h3]
            omega
      | dir p m cs =>
          refine ⟨m₁ ++ m₂ ++ cs, ?_, ?_, ?_⟩
          · show p₁ ++ p₂ ++ (entryOf par (FsTree.dir p m cs)).get_children = _
            rw [entryOf_get_children]
            simp [FsTree.childTrees, ← hm1, ← hm2]
          · intro u hu
            rcases List.mem_append.mp hu with h1 | h1
            · apply hcov
              rcases List.mem_append.mp h1 with h2 | h2
              · exact List.mem_append_left _ h2
              · exact List.mem_append_right _ (List.mem_cons_of_mem _ h2)
            · exact covers_children st (hcov (FsTree.dir p m cs) (by simp)) u h1
          · have h1 : (FsTree.dir p m cs).sizeSum = m.size + forestSizeSum cs := rfl
            have h3 : (entryOf par (FsTree.dir p m cs)).get_size = m.size := rfl
            have h2 : forestSizeSum (m₁ ++ m₂ ++ cs) =
                forestSizeSum m₁ + forestSizeSum m₂ + forestSizeSum cs := by
              rw [forestSizeSum_append, forestSizeSum_append]
            rw [h3]
            omega
  | miss p₁ p₂ k n he =>
      obtain ⟨m₁, t, m₂, hl, hm1, htk, hm2⟩ := map_eq_append_cons hq.symm
      subst hl
      have hcovt : Covers st t := hcov t (by simp)
      obtain ⟨par, hget⟩ := covers_get st hcovt
      rw [htk] at hget
      rw [he] at hget
      cases hget

theorem countMulti_reach_preserve (st : GenericStorage) {a b : List String × Nat}
    (h : Relation.ReflTransGen (CountMultiStep st) a b) (mf : List FsTree)
    (hq : a.1 = mf.map FsTree.path) (hcov : ∀ t ∈ mf, Covers st t) :
    ∃ mf2, b.1 = mf2.map FsTree.path ∧ (∀ t ∈ mf2, Covers st t) ∧
      b.2 + forestNodeCount mf2 = a.2 + forestNodeCount mf := by
  induction h with
  | refl => exact ⟨mf, hq, hcov, rfl⟩
  | tail hsteps hstep ih =>
      obtain ⟨mfm, hqm, hcovm, hcnt⟩ := ih
      obtain ⟨mf2, hq2, hcov2, hcnt2⟩ := countMulti_step_preserve st hstep mfm hqm hcovm
      exact ⟨mf2, hq2, hcov2, by omega⟩

theorem sizeMulti_reach_preserve (st : GenericStorage) {a b : List String × Nat}
    (h : Relation.ReflTransGen (SizeMultiStep st) a b) (mf : List FsTree)
    (hq : a.1 = mf.map FsTree.path) (hcov : ∀ t ∈ mf, Covers st t) :
    ∃ mf2, b.1 = mf2.map FsTree.path ∧ (∀ t ∈ mf2, Covers st t) ∧
      b.2 + forestSizeSum mf2 = a.2 + forestSizeSum mf := by
  induction h with
  | refl => exact ⟨mf, hq, hcov, rfl⟩
  | tail hsteps hstep ih =>
      obtain ⟨mfm, hqm, hcovm, hcnt⟩ := ih
      obtain ⟨mf2, hq2, hcov2, hcnt2⟩ := sizeMulti_step_preserve st hstep mfm hqm hcovm
      exact ⟨mf2, hq2, hcov2, by omega⟩

theorem countMulti_run_value (st : GenericStorage) {q : List String} {n : Nat}
    (h : Relation.ReflTransGen (CountMultiStep st) (q, 0) ([], n))
    (mf : List FsTree) (hq : q = mf.map FsTree.path) (hcov : ∀ t ∈ mf, Covers st t) :
    n = forestNodeCount mf := by
  obtain ⟨mf2, hq2, _, hcnt⟩ := countMulti_reach_preserve st h mf hq hcov
  cases mf2 with
  | nil =>
      simp only [forestNodeCount] at hcnt
      omega
  | cons u us => simp at hq2

theorem sizeMulti_run_value (st : GenericStorage) {q : List String} {n : Nat}
    (h : Relation.ReflTransGen (SizeMultiStep st) (q, 0) ([], n))
    (mf : List FsTree) (hq : q = mf.map FsTree.path) (hcov : ∀ t ∈ mf, Covers st t) :
    n = forestSizeSum mf := by
  obtain ⟨mf2, hq2, _, hcnt⟩ := sizeMulti_reach_preserve st h mf hq hcov
  cases mf2 with
  | nil =>
      simp only [forestSizeSum] at hcnt
      omega
  | cons u us => simp at hq2

theorem populated_count_entries_eq (rootPath : String) (cs : List FsTree) (r : DirEntry)
    (fuel : Nat) (hr : r.children = cs.map FsTree.path)
    (hnd : (forestKeys (some rootPath) cs).Nodup)
    (hfuel : forestNodeCount cs < fuel) :
    DirEntry.count_entries r (some (populated rootPath cs)) fuel =
      some (forestNodeCount cs) := by
  have hcov := populated_covers rootPath cs hnd
  show count_entries_loop (populated rootPath cs) fuel r.children 0 = _
  rw [hr]
  have h := count_loop_covers (populated rootPath cs) fuel cs 0 hcov hfuel
  simpa using h

theorem populated_calculate_size_eq (rootPath : String) (cs : List FsTree) (r : DirEntry)
    (fuel : Nat) (hr : r.children = cs.map FsTree.path)
    (hnd : (forestKeys (some rootPath) cs).Nodup)
    (hfuel : forestNodeCount cs < fuel) :
    DirEntry.calculate_size_all_children r (some (populated rootPath cs)) fuel =
      some (forestSizeSum cs) := by
  have hcov := populated_covers rootPath cs hnd
  show calculate_size_loop (populated rootPath cs) fuel r.children 0 = _
  rw [hr]
  have h := size_loop_covers (populated rootPath cs) fuel cs 0 hcov hfuel
  simpa using h

/-- C1 counterexample: a crawl-populated store whose root has a single empty
subdirectory "c". The walk pops "c", finds a Dir entry and increments the
counter (src/dir.rs line 169 increments for every found entry, File or Dir
alike), so count_entries returns 1 although the subtree contains 0 File
entries — refuting "Directory entries encountered during the walk are never
counted". -/
theorem count_entries_counts_directories :
    DirEntry.count_entries (sampleRoot ["c"]) (some (populated "r" [tDc])) 3 = some 1 ∧
    forestFileCount [tDc] = 0 ∧
    DirEntry.count_entries (sampleRoot ["c"]) (some (populated "r" [tDc])) 3 ≠
      some (forestFileCount [tDc]) := by
  refine ⟨?_, rfl, ?_⟩ <;> decide

/-- C1 (amended): for every crawl-populated store and root directory,
count_entries returns the number of ALL entries — Files and Directories
alike — in the subtree reachable from the root's children keys; only the
root itself is never counted. This holds for the sequential explicit-stack
walk and for every completed run of the parallel variant, whatever order the
workers took tasks in. -/
theorem count_entries_counts_all_entries (rootPath : String) (cs : List FsTree) (r : DirEntry)
    (fuel : Nat) (hr : r.children = cs.map FsTree.path)
    (hnd : (forestKeys (some rootPath) cs).Nodup)
    (hfuel : forestNodeCount cs < fuel) :
    DirEntry.count_entries r (some (populated rootPath cs)) fuel =
      some (forestNodeCount cs) ∧
    (∀ n, CountMultiRun (populated rootPath cs) r.children n → n = forestNodeCount cs) := by
  refine ⟨populated_count_entries_eq rootPath cs r fuel hr hnd hfuel, ?_⟩
  intro n hrun
  exact countMulti_run_value (populated rootPath cs) hrun cs hr (populated_covers rootPath cs hnd)

theorem count_entries_counts_all_entries_witness :
    DirEntry.count_entries (sampleRoot ["a"]) (some (populated "r" [tDa])) 3 =
      some (forestNodeCount [tDa]) :=
  (count_entries_counts_all_entries "r" [tDa] (sampleRoot ["a"]) 3 rfl
    (by decide) (by decide)).1

/-- C2 counterexample: the same store with a single empty subdirectory "c" of
stat size 4096. The walk adds `entry.get_size()` of every found entry
(src/dir.rs line 256), and a Dir entry's get_size is its own stat size
(4096, set from `metadata.len()` in DirEntry::new), so calculate_size
returns 4096 although the sum of File sizes is 0 — refuting "a directory's
own stat size is never added". -/
theorem calculate_size_adds_directory_stat_size :
    DirEntry.calculate_size_all_children (sampleRoot ["c"])
        (some (populated "r" [tDc])) 3 = some 4096 ∧
    forestFileSizeSum [tDc] = 0 ∧
    DirEntry.calculate_size_all_children (sampleRoot ["c"])
        (some (populated "r" [tDc])) 3 ≠ some (forestFileSizeSum [tDc]) := by
  refine ⟨?_, rfl, ?_⟩ <;> decide

/-- C2 (amended): for every crawl-populated store and root directory,
calculate_size returns the sum of `get_size` over ALL entries in the subtree
below the root: each File contributes its size and each Directory
contributes its own stat size (the `size` field captured at construction),
not 0. -/
theorem calculate_size_sums_all_entry_sizes (rootPath : String) (cs : List FsTree)
    (r : DirEntry) (fuel : Nat) (hr : r.children = cs.map FsTree.path)
    (hnd : (forestKeys (some rootPath) cs).Nodup)
    (hfuel : forestNodeCount cs < fuel) :
    DirEntry.calculate_size_all_children r (some (populated rootPath cs)) fuel =
      some (forestSizeSum cs) :=
  populated_calculate_size_eq rootPath cs r fuel hr hnd hfuel

theorem calculate_size_sums_all_entry_sizes_witness :
    DirEntry.calculate_size_all_children (sampleRoot ["a"])
        (some (populated "r" [tDa])) 3 = some (forestSizeSum [tDa]) :=
  calculate_size_sums_all_entry_sizes "r" [tDa] (sampleRoot ["a"]) 3 rfl
    (by decide) (by decide)

/-- C3: on every crawl-populated store, the parallel aggregator variants
agree with the sequential ones: every completed run of count_entries_multi
yields exactly the sequential count_entries value and every completed run of
calculate_size_all_children_multi yields exactly the sequential
calculate_size_all_children value — independent of the order in which the
workers took tasks. -/
theorem parallel_variants_agree (rootPath : String) (cs : List FsTree) (r : DirEntry)
    (fuel : Nat) (hr : r.children = cs.map FsTree.path)
    (hnd : (forestKeys (some rootPath) cs).Nodup)
    (hfuel : forestNodeCount cs < fuel) (n m : Nat)
    (hc : CountMultiRun (populated rootPath cs) r.children n)
    (hs : SizeMultiRun (populated rootPath cs) r.children m) :
    DirEntry.count_entries r (some (populated rootPath cs)) fuel = some n ∧
    DirEntry.calculate_size_all_children r (some (populated rootPath cs)) fuel = some m := by
  have hcov := populated_covers rootPath cs hnd
  have hn : n = forestNodeCount cs :=
    countMulti_run_value (populated rootPath cs) hc cs hr hcov
  have hm : m = forestSizeSum cs :=
    sizeMulti_run_value (populated rootPath cs) hs cs hr hcov
  subst hn
  subst hm
  exact ⟨populated_count_entries_eq rootPath cs r fuel hr hnd hfuel,
    populated_calculate_size_eq rootPath cs r fuel hr hnd hfuel⟩

theorem parallel_variants_agree_witness :
    DirEntry.count_entries (sampleRoot ["a"]) (some (populated "r" [tDa])) 3 = some 2 ∧
    DirEntry.calculate_size_all_children (sampleRoot ["a"])
        (some (populated "r" [tDa])) 3 = some 4101 := by
  have hc : CountMultiRun (populated "r" [tDa]) ["a"] 2 :=
    Relation.ReflTransGen.head
      (CountMultiStep.found [] [] "a" (entryOf (some "r") tDa) 0 (by decide))
      (Relation.ReflTransGen.head
        (CountMultiStep.found [] [] "b" (entryOf (some "a") tFb) 1 (by decide))
        Relation.ReflTransGen.refl)
  have hs : SizeMultiRun (populated "r" [tDa]) ["a"] 4101 :=
    Relation.ReflTransGen.head
      (SizeMultiStep.found [] [] "a" (entryOf (some "r") tDa) 0 (by decide))
      (Relation.ReflTransGen.head
        (SizeMultiStep.found [] [] "b" (entryOf (some "a") tFb) 4096 (by decide))
        Relation.ReflTransGen.refl)
  exact parallel_variants_agree "r" [tDa] (sampleRoot ["a"]) 3 rfl (by decide) (by decide)
    2 4101 hc hs

theorem taskDirs_nil : taskDirs [] = 0 := rfl

theorem taskDirs_cons (t : FsTree) (l : List FsTree) :
    taskDirs (t :: l) = ↑t.allDirTrees + taskDirs l := by
  simp [taskDirs]

theorem taskDirs_append (a b : List FsTree) :
    taskDirs (a ++ b) = taskDirs a + taskDirs b := by
  simp [taskDirs]

theorem taskDirs_perm {a b : List FsTree} (h : a.Perm b) : taskDirs a = taskDirs b := by
  unfold taskDirs
  rw [Multiset.coe_eq_coe.mpr h]

theorem forestAllDirTrees_cons (t : FsTree) (ts : List FsTree) :
    forestAllDirTrees (t :: ts) = t.allDirTrees ++ forestAllDirTrees ts := rfl

theorem taskDirs_eq_forest (l : List FsTree) :
    taskDirs l = ↑(forestAllDirTrees l) := by
  induction l with
  | nil => rfl
  | cons t ts ih =>
      rw [taskDirs_cons, ih, forestAllDirTrees_cons, ← Multiset.coe_add]

theorem allDirTrees_of_isDir {t : FsTree} (h : t.isDir = true) :
    t.allDirTrees = t :: forestAllDirTrees t.childTrees := by
  cases t with
  | file p m => simp [FsTree.isDir] at h
  | dir p m cs => rfl

theorem forestAllDirTrees_filter_isDir (cs : List FsTree) :
    forestAllDirTrees (cs.filter fun c => c.isDir) = forestAllDirTrees cs := by
  induction cs with
  | nil => rfl
  | cons t ts ih =>
      cases t with
      | file p m =>
          rw [forestAllDirTrees_cons]
          simp only [List.filter_cons]
          rw [show (FsTree.file p m).isDir = false from rfl]
          simpa [FsTree.allDirTrees] using ih
      | dir p m cs2 =>
          simp only [List.filter_cons]
          rw [show (FsTree.dir p m cs2).isDir = true from rfl]
          simp only [if_true, forestAllDirTrees_cons, ih]

theorem taskDirs_dirChildren (t : FsTree) :
    taskDirs t.dirChildren = ↑(forestAllDirTrees t.childTrees) := by
  rw [taskDirs_eq_forest]
  unfold FsTree.dirChildren
  rw [forestAllDirTrees_filter_isDir]

theorem comp_update_eq {n : Nat} {α β : Type} (f : Fin n → α) (g : α → β)
    (j : Fin n) (v : α) :
    (fun i => g (Function.update f j v i)) = Function.update (fun i => g (f i)) j (g v) := by
  funext i
  by_cases h : i = j
  · subst h
    simp
  · simp [Function.update, h]

theorem sum_update_add {n : Nat} {β : Type} [AddCommMonoid β] (h : Fin n → β)
    (j : Fin n) (v : β) :
    (Finset.univ.sum fun i => Function.update h j v i) + h j =
      v + Finset.univ.sum h := by
  rw [Finset.sum_update_of_mem (Finset.mem_univ j)]
  rw [Finset.sdiff_singleton_eq_erase]
  rw [add_assoc, Finset.sum_erase_add Finset.univ h (Finset.mem_univ j)]

theorem sum_taskDirs_update {n : Nat} (f : Fin n → List FsTree) (j : Fin n)
    (v : List FsTree) :
    (Finset.univ.sum fun i => taskDirs (Function.update f j v i)) + taskDirs (f j) =
      taskDirs v + Finset.univ.sum fun i => taskDirs (f i) := by
  rw [show (fun i => taskDirs (Function.update f j v i)) =
      Function.update (fun i => taskDirs (f i)) j (taskDirs v) from
    comp_update_eq f taskDirs j v]
  exact sum_update_add (fun i => taskDirs (f i)) j (taskDirs v)

theorem sum_handDirs_update {n : Nat} (f : Fin n → WPc) (j : Fin n) (v : WPc) :
    (Finset.univ.sum fun i => (↑((Function.update f j v i).handDirs) : Multiset FsTree))
        + ↑((f j).handDirs) =
      (↑(v.handDirs) : Multiset FsTree)
        + Finset.univ.sum fun i => (↑((f i).handDirs) : Multiset FsTree) := by
  rw [show (fun i => (↑((Function.update f j v i).handDirs) : Multiset FsTree)) =
      Function.update (fun i => (↑((f i).handDirs) : Multiset FsTree)) j ↑(v.handDirs) from
    comp_update_eq f (fun pc => (↑(pc.handDirs) : Multiset FsTree)) j v]
  exact sum_update_add _ j _

theorem crawlInv_init (n : Nat) (cs : List FsTree) (hn : 0 < n) :
    CrawlInv cs (crawlInit n cs) := by
  refine ⟨?_, ?_, ?_, ?_, ?_, ?_⟩
  · intro t ht
    exact (List.mem_filter.mp ht).2
  · intro i t ht
    simp [crawlInit] at ht
  · intro i t h
    rcases h with h | h <;> simp [crawlInit] at h
  · intro i h
    simp [crawlInit] at h
  · intro h
    exact ⟨⟨0, hn⟩, by simp [crawlInit], by simp [crawlInit]⟩
  · show (↑([] : List FsTree) : Multiset FsTree) + taskDirs (cs.filter fun c => c.isDir)
        + (Finset.univ.sum fun _ : Fin n => taskDirs ([] : List FsTree))
        + (Finset.univ.sum fun _ : Fin n => (↑(WPc.start.handDirs) : Multiset FsTree))
        = ↑(forestAllDirTrees cs)
    rw [taskDirs_eq_forest, forestAllDirTrees_filter_isDir]
    simp [taskDirs_nil, WPc.handDirs]

theorem crawlInv_step {n : Nat} {cs : List FsTree} {s s2 : CrawlState n}
    (hinv : CrawlInv cs s) (hstep : CrawlStep s s2) : CrawlInv cs s2 := by
  obtain ⟨gdir, ldir, hdir, llive, glive, hcons⟩ := hinv
  cases hstep with
  | popLocal i t rest hpc hperm =>
      have htmem : t ∈ s.locals i := hperm.mem_iff.mpr (by simp)
      have htdir : t.isDir = true := ldir i t htmem
      refine ⟨gdir, ?_, ?_, ?_, ?_, ?_⟩
      · intro i2 u hu
        dsimp only at hu
        by_cases hii : i2 = i
        · subst hii
          rw [Function.update_same] at hu
          exact ldir i2 u (hperm.mem_iff.mpr (List.mem_cons_of_mem _ hu))
        · rw [Function.update_noteq hii] at hu
          exact ldir i2 u hu
      · intro i2 u h
        dsimp only at h
        by_cases hii : i2 = i
        · subst hii
          rw [Function.update_same] at h
          rcases h with h | h
        
          · injection h with h2
            subst h2
            exact htdir
          · simp at h
        · rw [Function.update_noteq hii] at h
          exact hdir i2 u h
      · intro i2 h2
        dsimp only at h2 ⊢
        by_cases hii : i2 = i
        · subst hii
          rw [Function.update_same]
          simp
        · rw [Function.update_noteq hii]
          rw [Function.update_noteq hii] at h2
          exact llive i2 h2
      · intro h
        exact ⟨i, by dsimp only; rw [Function.update_same]; simp, by dsimp only; rw [Function.update_same]; simp⟩
      · show (↑(t :: s.popped) : Multiset FsTree) + taskDirs s.global
            + (Finset.univ.sum fun i2 => taskDirs (Function.update s.locals i rest i2))
            + (Finset.univ.sum fun i2 =>
                (↑((Function.update s.pcs i (WPc.got t) i2).handDirs) : Multiset FsTree))
            = ↑(forestAllDirTrees cs)
        have hS := sum_taskDirs_update s.locals i rest
        have hH2 : (Finset.univ.sum fun i2 =>
              (↑((Function.update s.pcs i (WPc.got t) i2).handDirs) : Multiset FsTree))
            = ↑(forestAllDirTrees t.childTrees)
              + Finset.univ.sum fun i2 => (↑((s.pcs i2).handDirs) : Multiset FsTree) := by
          have h0 := sum_handDirs_update s.pcs i (WPc.got t)
          rw [hpc] at h0
          simpa [WPc.handDirs] using h0
        have hloc : taskDirs (s.locals i) =
            ↑[t] + (↑(forestAllDirTrees t.childTrees) + taskDirs rest) := by
          rw [taskDirs_perm hperm, taskDirs_cons, allDirTrees_of_isDir htdir]
          rw [show (t :: forestAllDirTrees t.childTrees) =
              [t] ++ forestAllDirTrees t.childTrees from rfl, ← Multiset.coe_add]
          abel
        have key : (↑(t :: s.popped) : Multiset FsTree) + taskDirs s.global
            + (Finset.univ.sum fun i2 => taskDirs (Function.update s.locals i rest i2))
            + (Finset.univ.sum fun i2 =>
                (↑((Function.update s.pcs i (WPc.got t) i2).handDirs) : Multiset FsTree))
            + taskDirs (s.locals i)
            = (↑(forestAllDirTrees cs) : Multiset FsTree) + taskDirs (s.locals i) := by
          calc (↑(t :: s.popped) : Multiset FsTree) + taskDirs s.global
              + (Finset.univ.sum fun i2 => taskDirs (Function.update s.locals i rest i2))
              + (Finset.univ.sum fun i2 =>
                  (↑((Function.update s.pcs i (WPc.got t) i2).handDirs) : Multiset FsTree))
              + taskDirs (s.locals i)
              = (↑(t :: s.popped) : Multiset FsTree) + taskDirs s.global
                + ((Finset.univ.sum fun i2 => taskDirs (Function.update s.locals i rest i2))
                    + taskDirs (s.locals i))
                + (Finset.univ.sum fun i2 =>
                    (↑((Function.update s.pcs i (WPc.got t) i2).handDirs) : Multiset FsTree)) := by
                abel
            _ = (↑(t :: s.popped) : Multiset FsTree) + taskDirs s.global
                + (taskDirs rest + Finset.univ.sum fun i2 => taskDirs (s.locals i2))
                + (↑(forestAllDirTrees t.childTrees)
                    + Finset.univ.sum fun i2 => (↑((s.pcs i2).handDirs) : Multiset FsTree)) := by
                rw [hS, hH2]
            _ = ((↑s.popped : Multiset FsTree) + taskDirs s.global
                + (Finset.univ.sum fun i2 => taskDirs (s.locals i2))
                + (Finset.univ.sum fun i2 => (↑((s.pcs i2).handDirs) : Multiset FsTree)))
                + (↑[t] + (↑(forestAllDirTrees t.childTrees) + taskDirs rest)) := by
                rw [show (t :: s.popped) = [t] ++ s.popped from rfl, ← Multiset.coe_add]
                abel
            _ = (↑(forestAllDirTrees cs) : Multiset FsTree) + taskDirs (s.locals i) := by
                rw [hcons, hloc]
        exact add_right_cancel key
  | stealGlobal i t batch rest hpc hloc hperm =>
      have htmem : t ∈ s.global := hperm.mem_iff.mpr (by simp)
      have htdir : t.isDir = true := gdir t htmem
      refine ⟨?_, ?_, ?_, ?_, ?_, ?_⟩
      · intro u hu
        dsimp only at hu
        exact gdir u (hperm.mem_iff.mpr (by simp [hu]))
      · intro i2 u hu
        dsimp only at hu
        by_cases hii : i2 = i
        · subst hii
          rw [Function.update_same] at hu
          exact gdir u (hperm.mem_iff.mpr (by simp [hu]))
        · rw [Function.update_noteq hii] at hu
          exact ldir i2 u hu
      · intro i2 u h
        dsimp only at h
        by_cases hii : i2 = i
        · subst hii
          rw [Function.update_same] at h
          rcases h with h | h
          · injection h with h2
            subst h2
            exact htdir
          · simp at h
        · rw [Function.update_noteq hii] at h
          exact hdir i2 u h
      · intro i2 h2
        dsimp only at h2 ⊢
        by_cases hii : i2 = i
        · subst hii
          rw [Function.update_same]
          simp
        · rw [Function.update_noteq hii]
          rw [Function.update_noteq hii] at h2
          exact llive i2 h2
      · intro h
        exact ⟨i, by dsimp only; rw [Function.update_same]; simp, by dsimp only; rw [Function.update_same]; simp⟩
      · show (↑(t :: s.popped) : Multiset FsTree) + taskDirs rest
            + (Finset.univ.sum fun i2 => taskDirs (Function.update s.locals i batch i2))
            + (Finset.univ.sum fun i2 =>
                (↑((Function.update s.pcs i (WPc.got t) i2).handDirs) : Multiset FsTree))
            = ↑(forestAllDirTrees cs)
        have hS : (Finset.univ.sum fun i2 => taskDirs (Function.update s.locals i batch i2))
            = taskDirs batch + Finset.univ.sum fun i2 => taskDirs (s.locals i2) := by
          have h0 := sum_taskDirs_update s.locals i batch
          rw [hloc, taskDirs_nil, add_zero] at h0
          exact h0
        have hH2 : (Finset.univ.sum fun i2 =>
              (↑((Function.update s.pcs i (WPc.got t) i2).handDirs) : Multiset FsTree))
            = ↑(forestAllDirTrees t.childTrees)
              + Finset.univ.sum fun i2 => (↑((s.pcs i2).handDirs) : Multiset FsTree) := by
          have h0 := sum_handDirs_update s.pcs i (WPc.got t)
          rw [hpc] at h0
          simpa [WPc.handDirs] using h0
        have hglo : taskDirs s.global =
            ↑[t] + (↑(forestAllDirTrees t.childTrees) + (taskDirs batch + taskDirs rest)) := by
          rw [taskDirs_perm hperm, taskDirs_cons, allDirTrees_of_isDir htdir]
          rw [show (t :: forestAllDirTrees t.childTrees) =
              [t] ++ forestAllDirTrees t.childTrees from rfl, ← Multiset.coe_add,
            taskDirs_append]
          abel
        calc (↑(t :: s.popped) : Multiset FsTree) + taskDirs rest
            + (Finset.univ.sum fun i2 => taskDirs (Function.update s.locals i batch i2))
            + (Finset.univ.sum fun i2 =>
                (↑((Function.update s.pcs i (WPc.got t) i2).handDirs) : Multiset FsTree))
            = (↑(t :: s.popped) : Multiset FsTree) + taskDirs rest
              + (taskDirs batch + Finset.univ.sum fun i2 => taskDirs (s.locals i2))
              + (↑(forestAllDirTrees t.childTrees)
                  + Finset.univ.sum fun i2 => (↑((s.pcs i2).handDirs) : Multiset FsTree)) := by
              rw [hS, hH2]
          _ = (↑s.popped : Multiset FsTree) + taskDirs s.global
              + (Finset.univ.sum fun i2 => taskDirs (s.locals i2))
              + (Finset.univ.sum fun i2 => (↑((s.pcs i2).handDirs) : Multiset FsTree)) := by
              rw [hglo, show (t :: s.popped) = [t] ++ s.popped from rfl, ← Multiset.coe_add]
              abel
          _ = ↑(forestAllDirTrees cs) := hcons
  | stealPeer i j t rest hij hpc hloc hperm =>
      have htmem : t ∈ s.locals j := hperm.mem_iff.mpr (by simp)
      have htdir : t.isDir = true := ldir j t htmem
      refine ⟨gdir, ?_, ?_, ?_, ?_, ?_⟩
      · intro i2 u hu
        dsimp only at hu
        by_cases hjj : i2 = j
        · subst hjj
          rw [Function.update_same] at hu
          exact ldir i2 u (hperm.mem_iff.mpr (List.mem_cons_of_mem _ hu))
        · rw [Function.update_noteq hjj] at hu
          exact ldir i2 u hu
      · intro i2 u h
        dsimp only at h
        by_cases hii : i2 = i
        · subst hii
          rw [Function.update_same] at h
          rcases h with h | h
          · injection h with h2
            subst h2
            exact htdir
          · simp at h
        · rw [Function.update_noteq hii] at h
          exact hdir i2 u h
      · intro i2 h2
        dsimp only at h2 ⊢
        by_cases hii : i2 = i
        · subst hii
          rw [Function.update_same]
          simp
        · rw [Function.update_noteq hii]
          by_cases hjj : i2 = j
          · subst hjj
            exact llive i2 (by
              intro hempty
              rw [hempty] at hperm
              exact absurd hperm.symm.eq_nil (by simp))
          · rw [Function.update_noteq hjj] at h2
            exact llive i2 h2
      · intro h
        exact ⟨i, by dsimp only; rw [Function.update_same]; simp, by dsimp only; rw [Function.update_same]; simp⟩
      · show (↑(t :: s.popped) : Multiset FsTree) + taskDirs s.global
            + (Finset.univ.sum fun i2 => taskDirs (Function.update s.locals j rest i2))
            + (Finset.univ.sum fun i2 =>
                (↑((Function.update s.pcs i (WPc.got t) i2).handDirs) : Multiset FsTree))
            = ↑(forestAllDirTrees cs)
        have hS := sum_taskDirs_update s.locals j rest
        have hH2 : (Finset.univ.sum fun i2 =>
              (↑((Function.update s.pcs i (WPc.got t) i2).handDirs) : Multiset FsTree))
            = ↑(forestAllDirTrees t.childTrees)
              + Finset.univ.sum fun i2 => (↑((s.pcs i2).handDirs) : Multiset FsTree) := by
          have h0 := sum_handDirs_update s.pcs i (WPc.got t)
          rw [hpc] at h0
          simpa [WPc.handDirs] using h0
        have hlocj : taskDirs (s.locals j) =
            ↑[t] + (↑(forestAllDirTrees t.childTrees) + taskDirs rest) := by
          rw [taskDirs_perm hperm, taskDirs_cons, allDirTrees_of_isDir htdir]
          rw [show (t :: forestAllDirTrees t.childTrees) =
              [t] ++ forestAllDirTrees t.childTrees from rfl, ← Multiset.coe_add]
          abel
        have key : (↑(t :: s.popped) : Multiset FsTree) + taskDirs s.global
            + (Finset.univ.sum fun i2 => taskDirs (Function.update s.locals j rest i2))
            + (Finset.univ.sum fun i2 =>
                (↑((Function.update s.pcs i (WPc.got t) i2).handDirs) : Multiset FsTree))
            + taskDirs (s.locals j)
            = (↑(forestAllDirTrees cs) : Multiset FsTree) + taskDirs (s.locals j) := by
          calc (↑(t :: s.popped) : Multiset FsTree) + taskDirs s.global
              + (Finset.univ.sum fun i2 => taskDirs (Function.update s.locals j rest i2))
              + (Finset.univ.sum fun i2 =>
                  (↑((Function.update s.pcs i (WPc.got t) i2).handDirs) : Multiset FsTree))
              + taskDirs (s.locals j)
              = (↑(t :: s.popped) : Multiset FsTree) + taskDirs s.global
                + ((Finset.univ.sum fun i2 => taskDirs (Function.update s.locals j rest i2))
                    + taskDirs (s.locals j))
                + (Finset.univ.sum fun i2 =>
                    (↑((Function.update s.pcs i (WPc.got t) i2).handDirs) : Multiset FsTree)) := by
                abel
            _ = (↑(t :: s.popped) : Multiset FsTree) + taskDirs s.global
                + (taskDirs rest + Finset.univ.sum fun i2 => taskDirs (s.locals i2))
                + (↑(forestAllDirTrees t.childTrees)
                    + Finset.univ.sum fun i2 => (↑((s.pcs i2).handDirs) : Multiset FsTree)) := by
                rw [hS, hH2]
            _ = ((↑s.popped : Multiset FsTree) + taskDirs s.global
                + (Finset.univ.sum fun i2 => taskDirs (s.locals i2))
                + (Finset.univ.sum fun i2 => (↑((s.pcs i2).handDirs) : Multiset FsTree)))
                + (↑[t] + (↑(forestAllDirTrees t.childTrees) + taskDirs rest)) := by
                rw [show (t :: s.popped) = [t] ++ s.popped from rfl, ← Multiset.coe_add]
                abel
            _ = (↑(forestAllDirTrees cs) : Multiset FsTree) + taskDirs (s.locals j) := by
                rw [hcons, hlocj]
        exact add_right_cancel key
  | findNone i hpc hloc =>
      refine ⟨gdir, ldir, ?_, ?_, ?_, ?_⟩
      · intro i2 u h
        dsimp only at h
        by_cases hii : i2 = i
        · subst hii
          rw [Function.update_same] at h
          rcases h with h | h <;> simp at h
        · rw [Function.update_noteq hii] at h
          exact hdir i2 u h
      · intro i2 h2
        dsimp only at h2 ⊢
        by_cases hii : i2 = i
        · subst hii
          rw [Function.update_same]
          simp
        · rw [Function.update_noteq hii]
          exact llive i2 h2
      · intro h
        exact ⟨i, by dsimp only; rw [Function.update_same]; simp, by dsimp only; rw [Function.update_same]; simp⟩
      · show (↑s.popped : Multiset FsTree) + taskDirs s.global
            + (Finset.univ.sum fun i2 => taskDirs (s.locals i2))
            + (Finset.univ.sum fun i2 =>
                (↑((Function.update s.pcs i WPc.checkC i2).handDirs) : Multiset FsTree))
            = ↑(forestAllDirTrees cs)
        have hH2 : (Finset.univ.sum fun i2 =>
              (↑((Function.update s.pcs i WPc.checkC i2).handDirs) : Multiset FsTree))
            = Finset.univ.sum fun i2 => (↑((s.pcs i2).handDirs) : Multiset FsTree) := by
          have h0 := sum_handDirs_update s.pcs i WPc.checkC
          rw [hpc] at h0
          simpa [WPc.handDirs] using h0
        rw [hH2]
        exact hcons
  | incCounter i t hpc =>
      refine ⟨gdir, ldir, ?_, ?_, ?_, ?_⟩
      · intro i2 u h
        dsimp only at h
        by_cases hii : i2 = i
        · subst hii
          rw [Function.update_same] at h
          rcases h with h | h
          · simp at h
          · injection h with h2
            subst h2
            exact hdir i2 t (Or.inl hpc)
        · rw [Function.update_noteq hii] at h
          exact hdir i2 u h
      · intro i2 h2
        dsimp only at h2 ⊢
        by_cases hii : i2 = i
        · subst hii
          rw [Function.update_same]
          simp
        · rw [Function.update_noteq hii]
          exact llive i2 h2
      · intro h
        exact ⟨i, by dsimp only; rw [Function.update_same]; simp, by dsimp only; rw [Function.update_same]; simp⟩
      · show (↑s.popped : Multiset FsTree) + taskDirs s.global
            + (Finset.univ.sum fun i2 => taskDirs (s.locals i2))
            + (Finset.univ.sum fun i2 =>
                (↑((Function.update s.pcs i (WPc.run t) i2).handDirs) : Multiset FsTree))
            = ↑(forestAllDirTrees cs)
        have hH2 : (Finset.univ.sum fun i2 =>
              (↑((Function.update s.pcs i (WPc.run t) i2).handDirs) : Multiset FsTree))
            = Finset.univ.sum fun i2 => (↑((s.pcs i2).handDirs) : Multiset FsTree) := by
          have h0 := sum_handDirs_update s.pcs i (WPc.run t)
          rw [hpc] at h0
          simp only [WPc.handDirs] at h0
          rw [add_comm (↑(forestAllDirTrees t.childTrees) : Multiset FsTree)] at h0
          exact add_right_cancel h0
        rw [hH2]
        exact hcons
  | process i t hpc =>
      refine ⟨?_, ldir, ?_, ?_, ?_, ?_⟩
      · intro u hu
        dsimp only at hu
        rcases List.mem_append.mp hu with h1 | h1
        · exact gdir u h1
        · exact (List.mem_filter.mp h1).2
      · intro i2 u h
        dsimp only at h
        by_cases hii : i2 = i
        · subst hii
          rw [Function.update_same] at h
          rcases h with h | h <;> simp at h
        · rw [Function.update_noteq hii] at h
          exact hdir i2 u h
      · intro i2 h2
        dsimp only at h2 ⊢
        by_cases hii : i2 = i
        · subst hii
          rw [Function.update_same]
          simp
        · rw [Function.update_noteq hii]
          exact llive i2 h2
      · intro h
        exact ⟨i, by dsimp only; rw [Function.update_same]; simp, by dsimp only; rw [Function.update_same]; simp⟩
      · show (↑s.popped : Multiset FsTree) + taskDirs (s.global ++ t.dirChildren)
            + (Finset.univ.sum fun i2 => taskDirs (s.locals i2))
            + (Finset.univ.sum fun i2 =>
                (↑((Function.update s.pcs i WPc.stored i2).handDirs) : Multiset FsTree))
            = ↑(forestAllDirTrees cs)
        have hH2 : (Finset.univ.sum fun i2 =>
              (↑((Function.update s.pcs i WPc.stored i2).handDirs) : Multiset FsTree))
              + ↑(forestAllDirTrees t.childTrees)
            = Finset.univ.sum fun i2 => (↑((s.pcs i2).handDirs) : Multiset FsTree) := by
          have h0 := sum_handDirs_update s.pcs i WPc.stored
          rw [hpc] at h0
          simpa [WPc.handDirs] using h0
        calc (↑s.popped : Multiset FsTree) + taskDirs (s.global ++ t.dirChildren)
            + (Finset.univ.sum fun i2 => taskDirs (s.locals i2))
            + (Finset.univ.sum fun i2 =>
                (↑((Function.update s.pcs i WPc.stored i2).handDirs) : Multiset FsTree))
            = (↑s.popped : Multiset FsTree) + taskDirs s.global
              + (Finset.univ.sum fun i2 => taskDirs (s.locals i2))
              + ((Finset.univ.sum fun i2 =>
                  (↑((Function.update s.pcs i WPc.stored i2).handDirs) : Multiset FsTree))
                + ↑(forestAllDirTrees t.childTrees)) := by
              rw [taskDirs_append, taskDirs_dirChildren]
              abel
          _ = (↑s.popped : Multiset FsTree) + taskDirs s.global
              + (Finset.univ.sum fun i2 => taskDirs (s.locals i2))
              + (Finset.univ.sum fun i2 => (↑((s.pcs i2).handDirs) : Multiset FsTree)) := by
              rw [hH2]
          _ = ↑(forestAllDirTrees cs) := hcons
  | decCounter i hpc =>
      refine ⟨gdir, ldir, ?_, ?_, ?_, ?_⟩
      · intro i2 u h
        dsimp only at h
        by_cases hii : i2 = i
        · subst hii
          rw [Function.update_same] at h
          rcases h with h | h <;> simp at h
        · rw [Function.update_noteq hii] at h
          exact hdir i2 u h
      · intro i2 h2
        dsimp only at h2 ⊢
        by_cases hii : i2 = i
        · subst hii
          rw [Function.update_same]
          simp
        · rw [Function.update_noteq hii]
          exact llive i2 h2
      · intro h
        exact ⟨i, by dsimp only; rw [Function.update_same]; simp, by dsimp only; rw [Function.update_same]; simp⟩
      · show (↑s.popped : Multiset FsTree) + taskDirs s.global
            + (Finset.univ.sum fun i2 => taskDirs (s.locals i2))
            + (Finset.univ.sum fun i2 =>
                (↑((Function.update s.pcs i WPc.checkC i2).handDirs) : Multiset FsTree))
            = ↑(forestAllDirTrees cs)
        have hH2 : (Finset.univ.sum fun i2 =>
              (↑((Function.update s.pcs i WPc.checkC i2).handDirs) : Multiset FsTree))
            = Finset.univ.sum fun i2 => (↑((s.pcs i2).handDirs) : Multiset FsTree) := by
          have h0 := sum_handDirs_update s.pcs i WPc.checkC
          rw [hpc] at h0
          simpa [WPc.handDirs] using h0
        rw [hH2]
        exact hcons
  | checkCounterPass i hpc h =>
      refine ⟨gdir, ldir, ?_, ?_, ?_, ?_⟩
      · intro i2 u h2
        dsimp only at h2
        by_cases hii : i2 = i
        · subst hii
          rw [Function.update_same] at h2
          rcases h2 with h2 | h2 <;> simp at h2
        · rw [Function.update_noteq hii] at h2
          exact hdir i2 u h2
      · intro i2 h2
        dsimp only at h2 ⊢
        by_cases hii : i2 = i
        · subst hii
          rw [Function.update_same]
          simp
        · rw [Function.update_noteq hii]
          exact llive i2 h2
      · intro h2
        exact ⟨i, by dsimp only; rw [Function.update_same]; simp, by dsimp only; rw [Function.update_same]; simp⟩
      · show (↑s.popped : Multiset FsTree) + taskDirs s.global
            + (Finset.univ.sum fun i2 => taskDirs (s.locals i2))
            + (Finset.univ.sum fun i2 =>
                (↑((Function.update s.pcs i WPc.checkG i2).handDirs) : Multiset FsTree))
            = ↑(forestAllDirTrees cs)
        have hH2 : (Finset.univ.sum fun i2 =>
              (↑((Function.update s.pcs i WPc.checkG i2).handDirs) : Multiset FsTree))
            = Finset.univ.sum fun i2 => (↑((s.pcs i2).handDirs) : Multiset FsTree) := by
          have h0 := sum_handDirs_update s.pcs i WPc.checkG
          rw [hpc] at h0
          simpa [WPc.handDirs] using h0
        rw [hH2]
        exact hcons
  | checkCounterFail i hpc h =>
      refine ⟨gdir, ldir, ?_, ?_, ?_, ?_⟩
      · intro i2 u h2
        dsimp only at h2
        by_cases hii : i2 = i
        · subst hii
          rw [Function.update_same] at h2
          rcases h2 with h2 | h2 <;> simp at h2
        · rw [Function.update_noteq hii] at h2
          exact hdir i2 u h2
      · intro i2 h2
        dsimp only at h2 ⊢
        by_cases hii : i2 = i
        · subst hii
          rw [Function.update_same]
          simp
        · rw [Function.update_noteq hii]
          exact llive i2 h2
      · intro h2
        exact ⟨i, by dsimp only; rw [Function.update_same]; simp, by dsimp only; rw [Function.update_same]; simp⟩
      · show (↑s.popped : Multiset FsTree) + taskDirs s.global
            + (Finset.univ.sum fun i2 => taskDirs (s.locals i2))
            + (Finset.univ.sum fun i2 =>
                (↑((Function.update s.pcs i WPc.start i2).handDirs) : Multiset FsTree))
            = ↑(forestAllDirTrees cs)
        have hH2 : (Finset.univ.sum fun i2 =>
              (↑((Function.update s.pcs i WPc.start i2).handDirs) : Multiset FsTree))
            = Finset.univ.sum fun i2 => (↑((s.pcs i2).handDirs) : Multiset FsTree) := by
          have h0 := sum_handDirs_update s.pcs i WPc.start
          rw [hpc] at h0
          simpa [WPc.handDirs] using h0
        rw [hH2]
        exact hcons
  | checkGlobalPass i hpc h =>
      refine ⟨gdir, ldir, ?_, ?_, ?_, ?_⟩
      · intro i2 u h2
        dsimp only at h2
        by_cases hii : i2 = i
        · subst hii
          rw [Function.update_same] at h2
          rcases h2 with h2 | h2 <;> simp at h2
        · rw [Function.update_noteq hii] at h2
          exact hdir i2 u h2
      · intro i2 h2
        dsimp only at h2 ⊢
        by_cases hii : i2 = i
        · subst hii
          rw [Function.update_same]
          simp
        · rw [Function.update_noteq hii]
          exact llive i2 h2
      · intro h2
        exact absurd h h2
      · show (↑s.popped : Multiset FsTree) + taskDirs s.global
            + (Finset.univ.sum fun i2 => taskDirs (s.locals i2))
            + (Finset.univ.sum fun i2 =>
                (↑((Function.update s.pcs i WPc.checkL i2).handDirs) : Multiset FsTree))
            = ↑(forestAllDirTrees cs)
        have hH2 : (Finset.univ.sum fun i2 =>
              (↑((Function.update s.pcs i WPc.checkL i2).handDirs) : Multiset FsTree))
            = Finset.univ.sum fun i2 => (↑((s.pcs i2).handDirs) : Multiset FsTree) := by
          have h0 := sum_handDirs_update s.pcs i WPc.checkL
          rw [hpc] at h0
          simpa [WPc.handDirs] using h0
        rw [hH2]
        exact hcons
  | checkGlobalFail i hpc h =>
      refine ⟨gdir, ldir, ?_, ?_, ?_, ?_⟩
      · intro i2 u h2
        dsimp only at h2
        by_cases hii : i2 = i
        · subst hii
          rw [Function.update_same] at h2
          rcases h2 with h2 | h2 <;> simp at h2
        · rw [Function.update_noteq hii] at h2
          exact hdir i2 u h2
      · intro i2 h2
        dsimp only at h2 ⊢
        by_cases hii : i2 = i
        · subst hii
          rw [Function.update_same]
          simp
        · rw [Function.update_noteq hii]
          exact llive i2 h2
      · intro h2
        exact ⟨i, by dsimp only; rw [Function.update_same]; simp, by dsimp only; rw [Function.update_same]; simp⟩
      · show (↑s.popped : Multiset FsTree) + taskDirs s.global
            + (Finset.univ.sum fun i2 => taskDirs (s.locals i2))
            + (Finset.univ.sum fun i2 =>
                (↑((Function.update s.pcs i WPc.start i2).handDirs) : Multiset FsTree))
            = ↑(forestAllDirTrees cs)
        have hH2 : (Finset.univ.sum fun i2 =>
              (↑((Function.update s.pcs i WPc.start i2).handDirs) : Multiset FsTree))
            = Finset.univ.sum fun i2 => (↑((s.pcs i2).handDirs) : Multiset FsTree) := by
          have h0 := sum_handDirs_update s.pcs i WPc.start
          rw [hpc] at h0
          simpa [WPc.handDirs] using h0
        rw [hH2]
        exact hcons
  | checkLocalPass i hpc h =>
      refine ⟨gdir, ldir, ?_, ?_, ?_, ?_⟩
      · intro i2 u h2
        dsimp only at h2
        by_cases hii : i2 = i
        · subst hii
          rw [Function.update_same] at h2
          rcases h2 with h2 | h2 <;> simp at h2
        · rw [Function.update_noteq hii] at h2
          exact hdir i2 u h2
      · intro i2 h2
        dsimp only at h2 ⊢
        by_cases hii : i2 = i
        · subst hii
          rw [h] at h2
          exact absurd rfl h2
        · rw [Function.update_noteq hii]
          exact llive i2 h2
      · intro h2
        obtain ⟨i0, hi1, hi2⟩ := glive h2
        have hii : i0 ≠ i := by
          intro heq
          rw [heq, hpc] at hi1
          exact hi1 rfl
        exact ⟨i0, by dsimp only; rw [Function.update_noteq hii]; exact hi1,
          by dsimp only; rw [Function.update_noteq hii]; exact hi2⟩
      · show (↑s.popped : Multiset FsTree) + taskDirs s.global
            + (Finset.univ.sum fun i2 => taskDirs (s.locals i2))
            + (Finset.univ.sum fun i2 =>
                (↑((Function.update s.pcs i WPc.exited i2).handDirs) : Multiset FsTree))
            = ↑(forestAllDirTrees cs)
        have hH2 : (Finset.univ.sum fun i2 =>
              (↑((Function.update s.pcs i WPc.exited i2).handDirs) : Multiset FsTree))
            = Finset.univ.sum fun i2 => (↑((s.pcs i2).handDirs) : Multiset FsTree) := by
          have h0 := sum_handDirs_update s.pcs i WPc.exited
          rw [hpc] at h0
          simpa [WPc.handDirs] using h0
        rw [hH2]
        exact hcons
  | checkLocalFail i hpc h =>
      refine ⟨gdir, ldir, ?_, ?_, ?_, ?_⟩
      · intro i2 u h2
        dsimp only at h2
        by_cases hii : i2 = i
        · subst hii
          rw [Function.update_same] at h2
          rcases h2 with h2 | h2 <;> simp at h2
        · rw [Function.update_noteq hii] at h2
          exact hdir i2 u h2
      · intro i2 h2
        dsimp only at h2 ⊢
        by_cases hii : i2 = i
        · subst hii
          rw [Function.update_same]
          simp
        · rw [Function.update_noteq hii]
          exact llive i2 h2
      · intro h2
        exact ⟨i, by dsimp only; rw [Function.update_same]; simp, by dsimp only; rw [Function.update_same]; simp⟩
      · show (↑s.popped : Multiset FsTree) + taskDirs s.global
            + (Finset.univ.sum fun i2 => taskDirs (s.locals i2))
            + (Finset.univ.sum fun i2 =>
                (↑((Function.update s.pcs i WPc.start i2).handDirs) : Multiset FsTree))
            = ↑(forestAllDirTrees cs)
        have hH2 : (Finset.univ.sum fun i2 =>
              (↑((Function.update s.pcs i WPc.start i2).handDirs) : Multiset FsTree))
            = Finset.univ.sum fun i2 => (↑((s.pcs i2).handDirs) : Multiset FsTree) := by
          have h0 := sum_handDirs_update s.pcs i WPc.start
          rw [hpc] at h0
          simpa [WPc.handDirs] using h0
        rw [hH2]
        exact hcons

theorem crawlInv_reachable {n : Nat} {cs : List FsTree} {s : CrawlState n} (hn : 0 < n)
    (h : CrawlReachable n cs s) : CrawlInv cs s := by
  induction h with
  | refl => exact crawlInv_init n cs hn
  | tail hsteps hstep ih => exact crawlInv_step ih hstep

/-- C4 (amended): in every terminal state of the crawl worker pool (n ≥ 1
workers, all exited), the popped directory-expansion tasks are exactly the
directory nodes below the root, as a multiset: each pushed Directory task was
popped exactly once, no pushed task was lost, the queues are all empty, and
the number of pops equals N, the number of directories below the root. (The
original claim's parenthetical — that no worker's termination check can fire
while a pushed task remains unprocessed — is refuted separately: a worker CAN
exit early on stale reads, but the worker that pushed the remaining task is
then still live, so the task is still processed and nothing is lost.) -/
theorem crawl_tasks_popped_exactly_once {n : Nat} {cs : List FsTree} {s : CrawlState n}
    (hn : 0 < n) (hreach : CrawlReachable n cs s) (hterm : ∀ i, s.pcs i = WPc.exited) :
    s.popped.Perm (forestAllDirTrees cs) ∧ s.global = [] ∧ (∀ i, s.locals i = []) ∧
    s.popped.length = (forestAllDirTrees cs).length := by
  obtain ⟨gdir, ldir, hdir, llive, glive, hcons⟩ := crawlInv_reachable hn hreach
  have hglo : s.global = [] := by
    by_contra hne
    obtain ⟨i, h1, h2⟩ := glive hne
    exact h2 (hterm i)
  have hloc : ∀ i, s.locals i = [] := by
    intro i
    by_contra hne
    exact llive i hne (hterm i)
  have hsum1 : (Finset.univ.sum fun i : Fin n => taskDirs (s.locals i)) = 0 := by
    apply Finset.sum_eq_zero
    intro i _
    rw [hloc i]
    rfl
  have hsum2 : (Finset.univ.sum fun i : Fin n =>
      (↑((s.pcs i).handDirs) : Multiset FsTree)) = 0 := by
    apply Finset.sum_eq_zero
    intro i _
    rw [hterm i]
    rfl
  rw [hglo, hsum1, hsum2] at hcons
  have hpop : (↑s.popped : Multiset FsTree) = ↑(forestAllDirTrees cs) := by
    simpa [taskDirs_nil] using hcons
  have hperm : s.popped.Perm (forestAllDirTrees cs) := Multiset.coe_eq_coe.mp hpop
  exact ⟨hperm, hglo, hloc, hperm.length_eq⟩

theorem crawl_tasks_popped_exactly_once_witness :
    c4w7.popped.Perm (forestAllDirTrees csW4) ∧ c4w7.global = [] ∧
    (∀ i, c4w7.locals i = []) ∧
    c4w7.popped.length = (forestAllDirTrees csW4).length := by
  have h01 : CrawlStep c4w0 c4w1 :=
    CrawlStep.stealGlobal c4w0 0 tB [] [] rfl rfl (List.Perm.refl _)
  have h12 : CrawlStep c4w1 c4w2 := CrawlStep.incCounter c4w1 0 tB rfl
  have h23 : CrawlStep c4w2 c4w3 := CrawlStep.process c4w2 0 tB rfl
  have h34 : CrawlStep c4w3 c4w4 := CrawlStep.decCounter c4w3 0 rfl
  have h45 : CrawlStep c4w4 c4w5 := CrawlStep.checkCounterPass c4w4 0 rfl (by decide)
  have h56 : CrawlStep c4w5 c4w6 := CrawlStep.checkGlobalPass c4w5 0 rfl rfl
  have h67 : CrawlStep c4w6 c4w7 := CrawlStep.checkLocalPass c4w6 0 rfl rfl
  have hreach : CrawlReachable 1 csW4 c4w7 :=
    Relation.ReflTransGen.head h01 (Relation.ReflTransGen.head h12
      (Relation.ReflTransGen.head h23 (Relation.ReflTransGen.head h34
        (Relation.ReflTransGen.head h45 (Relation.ReflTransGen.head h56
          (Relation.ReflTransGen.head h67 Relation.ReflTransGen.refl))))))
  have hterm : ∀ i : Fin 1, c4w7.pcs i = WPc.exited := by
    intro i
    fin_cases i
    rfl
  exact crawl_tasks_popped_exactly_once (by omega) hreach hterm

/-- C4 counterexample: a concrete 2-worker crawl of a root containing
directory A, which contains directory B. Worker 0 steals A (the global queue
is now empty, the in-flight counter still 0 because it is only incremented
after the pop); worker 1 finds no task, reads counter 0, reads the global
queue empty, and is about to read its own deque; worker 0 then increments the
counter and expands A, pushing the fresh Directory task B; worker 1 now reads
its (empty) deque and its termination check fires — it exits while the
pushed Directory task B is still unprocessed in the global queue. This
refutes the claim that no worker's termination check fires while a pushed
Directory task remains unprocessed. -/
theorem crawl_termination_check_fires_with_pending_task :
    CrawlReachable 2 csC4 c4s6 ∧ CrawlStep c4s6 c4s7 ∧
    c4s6.pcs 1 = WPc.checkL ∧ c4s7.pcs 1 = WPc.exited ∧
    c4s6.global = [tB] ∧ tB ∈ forestAllDirTrees csC4 ∧ ¬ tB ∈ c4s6.popped := by
  have h01 : CrawlStep c4s0 c4s1 :=
    CrawlStep.stealGlobal c4s0 0 tA [] [] rfl rfl (List.Perm.refl _)
  have h12 : CrawlStep c4s1 c4s2 := CrawlStep.findNone c4s1 1 rfl rfl
  have h23 : CrawlStep c4s2 c4s3 := CrawlStep.checkCounterPass c4s2 1 rfl (by decide)
  have h34 : CrawlStep c4s3 c4s4 := CrawlStep.checkGlobalPass c4s3 1 rfl rfl
  have h45 : CrawlStep c4s4 c4s5 := CrawlStep.incCounter c4s4 0 tA rfl
  have h56 : CrawlStep c4s5 c4s6 := CrawlStep.process c4s5 0 tA rfl
  refine ⟨?_, CrawlStep.checkLocalPass c4s6 1 rfl rfl, rfl, rfl, rfl, ?_, ?_⟩
  · exact Relation.ReflTransGen.head h01 (Relation.ReflTransGen.head h12
      (Relation.ReflTransGen.head h23 (Relation.ReflTransGen.head h34
        (Relation.ReflTransGen.head h45 (Relation.ReflTransGen.head h56
          Relation.ReflTransGen.refl)))))
  · show tB ∈ [tA, tB]
    exact List.mem_cons_of_mem _ (List.mem_cons_self _ _)
  · show ¬ tB ∈ [tA]
    intro h
    rw [List.mem_singleton] at h
    exact absurd (congrArg FsTree.path h) (by decide)
